import Mathlib

/-
Shallow embedding of the awarecache repository (src/awarecache): the seven
eviction strategies of cache_strategies.py and the context router of cache.py,
together with proofs settling the frozen claims about them.

Modelling conventions, shared by all definitions below:
* Python dict / OrderedDict objects become association lists
  `List (κ × α)` in insertion order (head = oldest binding); OrderedDict's
  `od[k] = v` keeps the position of an existing key (`setA`), `move_to_end`
  is erase-then-append, `popitem(last=False)` drops the head,
  `popitem(last=True)` drops the last element.
* Where the source keeps a dict and a deque in lock-step (FIFOCache's
  `cache`/`order`, SLRUCache's `probation_cache`/`probation` and
  `protected_cache`/`protected`), the pair is modelled as one association
  list whose order is the deque's order; every mutation site in the source
  updates both structures together, so the merged list is faithful.
* Values are `Int` (the miss sentinel is the literal `-1`, so values must be
  comparable with `-1`); keys and policy/context names are `String`.
* A Python method that can raise becomes a function returning
  `σ × Except Err α`: the returned state keeps every mutation performed
  before the raise, exactly as the mutated Python object would.
-/

/-- Association-list lookup: first binding of `k`, like a Python dict read. -/
def lookupA {κ α : Type} [DecidableEq κ] (k : κ) : List (κ × α) → Option α
  | [] => none
  | (k', v) :: t => if k' = k then some v else lookupA k t

/-- Association-list write, `od[k] = v`: update the first binding of `k` in
place (keeping its position), or append a new binding at the end. -/
def setA {κ α : Type} [DecidableEq κ] (k : κ) (v : α) : List (κ × α) → List (κ × α)
  | [] => [(k, v)]
  | (k', v') :: t => if k' = k then (k, v) :: t else (k', v') :: setA k v t

/-- Remove the first binding of `k`, like `del od[k]` / `deque.remove(k)`
(callers that can raise on a missing key check presence themselves). -/
def eraseA {κ α : Type} [DecidableEq κ] (k : κ) : List (κ × α) → List (κ × α)
  | [] => []
  | (k', v') :: t => if k' = k then t else (k', v') :: eraseA k t

/-- Source `OrderedDict.move_to_end(k)`: only called on present keys in the source. -/
def moveToEnd {κ α : Type} [DecidableEq κ] (k : κ) (l : List (κ × α)) : List (κ × α) :=
  match lookupA k l with
  | some v => eraseA k l ++ [(k, v)]
  | none => l

/-- Ordered-set insert (`od[key] = None` on an OrderedDict used as a set):
append if absent, keep the position if present. -/
def osetA {κ : Type} [DecidableEq κ] (k : κ) (l : List κ) : List κ :=
  if k ∈ l then l else l ++ [k]

/-- The Python exception kinds the embedded code can raise.  Router-level
`ValueError`s are split into the spec's taxonomy (`invalidArgument`,
`invalidConfiguration`, `unknownContext`); strategy-level exceptions keep
their Python class.  `fuelExhausted` marks the Clock sweep's `while True`
loop running past the 2 x capacity bound that is proved below. -/
inductive Err
  | invalidArgument
  | invalidConfiguration
  | unknownContext
  | valueError
  | typeError
  | keyError
  | indexError
  | attributeError
  | fuelExhausted
deriving DecidableEq, Repr

/-! ## LRUCache (cache_strategies.py lines 95-146) -/

structure LRUState where
  cache : List (String × Int)
  capacity : Nat
deriving DecidableEq, Repr

namespace LRUCache

/-- Source `LRUCache.__init__`: `capacity` arrives as a Python value that may be
`None` (the router forwards its optional argument unchanged); `None <= 0`
raises `TypeError`, a non-positive int raises `ValueError`. -/
def init (capacity : Option Int) : Except Err LRUState :=
  match capacity with
  | none => .error .typeError
  | some c => if c ≤ 0 then .error .valueError else .ok { cache := [], capacity := c.toNat }

/-- Source `LRUCache.get`: absent key returns -1; present key is moved to the
most-recent end and its value returned. -/
def get (s : LRUState) (key : String) : LRUState × Int :=
  match lookupA key s.cache with
  | none => (s, -1)
  | some v => ({ s with cache := moveToEnd key s.cache }, v)

/-- Source `LRUCache.put`: move-to-end if present, write the value, then evict the
least-recently-used head if over capacity. -/
def put (s : LRUState) (key : String) (value : Int) : LRUState :=
  let c1 := if (lookupA key s.cache).isSome then moveToEnd key s.cache else s.cache
  let c2 := setA key value c1
  if s.capacity < c2.length then { s with cache := c2.tail } else { s with cache := c2 }

end LRUCache

/-! ## MRUCache (cache_strategies.py lines 149-199) -/

structure MRUState where
  cache : List (String × Int)
  capacity : Nat
deriving DecidableEq, Repr

namespace MRUCache

def init (capacity : Option Int) : Except Err MRUState :=
  match capacity with
  | none => .error .typeError
  | some c => if c ≤ 0 then .error .valueError else .ok { cache := [], capacity := c.toNat }

/-- Source `MRUCache.get`: reads in place, no reordering. -/
def get (s : MRUState) (key : String) : MRUState × Int :=
  match lookupA key s.cache with
  | none => (s, -1)
  | some v => (s, v)

/-- Source `MRUCache.put`: like LRU but `popitem(last=True)` on overflow, i.e. the
most-recent end (the entry just written) is dropped. -/
def put (s : MRUState) (key : String) (value : Int) : MRUState :=
  let c1 := if (lookupA key s.cache).isSome then moveToEnd key s.cache else s.cache
  let c2 := setA key value c1
  if s.capacity < c2.length then { s with cache := c2.dropLast } else { s with cache := c2 }

end MRUCache

/-! ## FIFOCache (cache_strategies.py lines 202-254)

The source keeps `cache : dict` plus `order : deque` in lock-step; they are
merged into one association list in arrival order. -/

structure FIFOState where
  cache : List (String × Int)
  capacity : Nat
deriving DecidableEq, Repr

namespace FIFOCache

def init (capacity : Option Int) : Except Err FIFOState :=
  match capacity with
  | none => .error .typeError
  | some c => if c ≤ 0 then .error .valueError else .ok { cache := [], capacity := c.toNat }

/-- Source `FIFOCache.get`: `dict.get(key, -1)`, no structural change. -/
def get (s : FIFOState) (key : String) : FIFOState × Int :=
  (s, ((lookupA key s.cache).getD (-1)))

/-- Source `FIFOCache.put`: a present key has its order record refreshed (remove +
re-append with the new value); a new key at capacity first evicts by arrival
order (`popleft` raises IndexError on an empty deque). -/
def put (s : FIFOState) (key : String) (value : Int) : FIFOState × Except Err Unit :=
  if (lookupA key s.cache).isSome then
    ({ s with cache := eraseA key s.cache ++ [(key, value)] }, .ok ())
  else if s.capacity ≤ s.cache.length then
    match s.cache with
    | [] => (s, .error .indexError)
    | _ :: t => ({ s with cache := t ++ [(key, value)] }, .ok ())
  else
    ({ s with cache := s.cache ++ [(key, value)] }, .ok ())

end FIFOCache

/-! ## TinyLFUCache (cache_strategies.py lines 258-322) -/

structure TinyLFUState where
  cache : List (String × Int)
  frequency : List (String × Nat)
  capacity : Nat
deriving DecidableEq, Repr

namespace TinyLFUCache

def init (capacity : Option Int) : Except Err TinyLFUState :=
  match capacity with
  | none => .error .typeError
  | some c =>
    if c ≤ 0 then .error .valueError
    else .ok { cache := [], frequency := [], capacity := c.toNat }

/-- Counter read: missing keys count 0. -/
def freqOf (s : TinyLFUState) (k : String) : Nat :=
  (lookupA k s.frequency).getD 0

/-- Source `min(self.cache, key=lambda k: self.frequency[k])`: Python `min` keeps
the first element among ties, scanning in the OrderedDict's order. -/
def minFreqKey (s : TinyLFUState) (k0 : String) (rest : List String) : String :=
  match rest with
  | [] => k0
  | k :: t => if freqOf s k < freqOf s k0 then minFreqKey s k t else minFreqKey s k0 t

/-- Source `TinyLFUCache.get`: bump the counter, move to the most-recent end,
return the value. -/
def get (s : TinyLFUState) (key : String) : TinyLFUState × Int :=
  match lookupA key s.cache with
  | none => (s, -1)
  | some v =>
    ({ s with frequency := setA key (freqOf s key + 1) s.frequency,
              cache := moveToEnd key s.cache }, v)

/-- Source `TinyLFUCache._evict`: delete the least-frequent resident key from both
structures (`min` on an empty dict raises ValueError, `del` of a counter
entry that was never created raises KeyError). -/
def evict (s : TinyLFUState) : TinyLFUState × Except Err Unit :=
  match s.cache with
  | [] => (s, .error .valueError)
  | (k0, _) :: t =>
    let victim := minFreqKey s k0 (t.map Prod.fst)
    match lookupA victim s.frequency with
    | none => (s, .error .keyError)
    | some _ =>
      ({ s with cache := eraseA victim s.cache,
                frequency := eraseA victim s.frequency }, .ok ())

/-- Source `TinyLFUCache.put`: NOTE — on a key already present the source only runs
`self.cache.move_to_end(key)` and never stores `value`; the old value
survives.  A new key at capacity evicts first, then is inserted with its
counter bumped. -/
def put (s : TinyLFUState) (key : String) (value : Int) : TinyLFUState × Except Err Unit :=
  if (lookupA key s.cache).isSome then
    ({ s with cache := moveToEnd key s.cache }, .ok ())
  else if s.capacity ≤ s.cache.length then
    match evict s with
    | (s1, .error e) => (s1, .error e)
    | (s1, .ok _) =>
      ({ s1 with cache := setA key value s1.cache,
                 frequency := setA key (freqOf s1 key + 1) s1.frequency }, .ok ())
  else
    ({ s with cache := setA key value s.cache,
              frequency := setA key (freqOf s key + 1) s.frequency }, .ok ())

end TinyLFUCache

/-! ## LFUCache (cache_strategies.py lines 4-92)

`cache : dict key -> (value, freq)`; `freq : defaultdict(OrderedDict)` of
frequency buckets, each bucket an ordered set of keys; `min_freq : int`.
A defaultdict read of a missing bucket yields the empty bucket (the side
effect of materialising an empty OrderedDict inside `self.freq` is not
modelled: the source never observes it — each such bucket is either deleted
again in the same statement or aborts the call with KeyError). -/

structure LFUState where
  cache : List (String × (Int × Nat))
  freq : List (Nat × List String)
  min_freq : Nat
  capacity : Nat
deriving DecidableEq, Repr

namespace LFUCache

def init (capacity : Option Int) : Except Err LFUState :=
  match capacity with
  | none => .error .typeError
  | some c =>
    if c ≤ 0 then .error .valueError
    else .ok { cache := [], freq := [], min_freq := 0, capacity := c.toNat }

/-- Source `self.freq[f]` on the defaultdict: missing buckets read as empty. -/
def bucketAt (s : LFUState) (f : Nat) : List String :=
  (lookupA f s.freq).getD []

/-- Source `LFUCache._update`: rewrite `cache[key] = (value, freq+1)`, then
`del self.freq[freq][key]` (KeyError if the key is not in that bucket);
if the bucket emptied, drop it and bump `min_freq` when it was the minimum;
finally append the key to the `freq+1` bucket. -/
def update (s : LFUState) (key : String) (value : Int) (f : Nat) :
    LFUState × Except Err Unit :=
  let s := { s with cache := setA key (value, f + 1) s.cache }
  let bucket := bucketAt s f
  if key ∈ bucket then
    let bucket' := bucket.erase key
    let s :=
      if bucket' = [] then
        { s with freq := eraseA f s.freq,
                 min_freq := if f = s.min_freq then s.min_freq + 1 else s.min_freq }
      else { s with freq := setA f bucket' s.freq }
    ({ s with freq := setA (f + 1) (osetA key (bucketAt s (f + 1))) s.freq }, .ok ())
  else
    (s, .error .keyError)

/-- Source `LFUCache._evict`: pop the head of the `min_freq` bucket (KeyError on an
empty OrderedDict) and delete it from `cache` (KeyError if absent). -/
def evict (s : LFUState) : LFUState × Except Err Unit :=
  match bucketAt s s.min_freq with
  | [] => (s, .error .keyError)
  | victim :: t =>
    let s := { s with freq := setA s.min_freq t s.freq }
    if (lookupA victim s.cache).isSome then
      ({ s with cache := eraseA victim s.cache }, .ok ())
    else
      (s, .error .keyError)

/-- The insertion tail of `LFUCache.put`'s new-key branch:
`cache[key] = (value, 1)`, append to the frequency-1 bucket, `min_freq = 1`. -/
def insertNew (s : LFUState) (key : String) (value : Int) : LFUState :=
  { s with cache := setA key (value, 1) s.cache,
           freq := setA 1 (osetA key (bucketAt s 1)) s.freq,
           min_freq := 1 }

/-- Source `LFUCache.get`: miss returns -1; a hit bumps the frequency via
`_update` and returns the (old) stored value. -/
def get (s : LFUState) (key : String) : LFUState × Except Err Int :=
  match lookupA key s.cache with
  | none => (s, .ok (-1))
  | some (v, f) =>
    match update s key v f with
    | (s', .error e) => (s', .error e)
    | (s', .ok _) => (s', .ok v)

/-- Source `LFUCache.put`: re-checks the capacity (ValueError), updates an existing
key as a hit-then-overwrite, otherwise evicts when at capacity and inserts
the new key at frequency 1 with `min_freq = 1`. -/
def put (s : LFUState) (key : String) (value : Int) : LFUState × Except Err Unit :=
  if s.capacity = 0 then (s, .error .valueError)
  else
    match lookupA key s.cache with
    | some (_, f) => update s key value f
    | none =>
      if s.capacity ≤ s.cache.length then
        match evict s with
        | (s1, .error e) => (s1, .error e)
        | (s1, .ok _) => (insertNew s1 key value, .ok ())
      else (insertNew s key value, .ok ())

end LFUCache

/-! ## SLRUCache (cache_strategies.py lines 325-410)

Each segment's dict + deque pair is merged into one association list in
deque order (every mutation site updates both together, except that
`put` on a probation-resident key adds a protected binding *without*
touching probation — faithfully reproduced below). -/

structure SLRUState where
  probation_cache : List (String × Int)
  protected_cache : List (String × Int)
  protected_capacity : Nat
  probation_capacity : Nat
deriving DecidableEq, Repr

namespace SLRUCache

/-- Source `SLRUCache.__init__`: validates capacity (TypeError on `None`,
ValueError if non-positive) and `0 < protected_ratio < 1`;
`protected_capacity = int(capacity * protected_ratio)`, `probation_capacity`
the remainder.  With both factors positive, Python's `int()` truncation is
the floor, and `floor(c * num/den) = (c * num) div den`; the division is
written on `num`/`den` directly (a ℚ is stored in lowest terms with a
positive denominator) so that it stays kernel-evaluable. -/
def init (capacity : Option Int) (protected_ratio : ℚ) : Except Err SLRUState :=
  match capacity with
  | none => .error .typeError
  | some c =>
    if c ≤ 0 then .error .valueError
    else if ¬(0 < protected_ratio ∧ protected_ratio < 1) then .error .valueError
    else
      let pc := (c * protected_ratio.num).toNat / protected_ratio.den
      .ok { probation_cache := [], protected_cache := [],
            protected_capacity := pc, probation_capacity := c.toNat - pc }

/-- Source `SLRUCache._promote_to_protected`: if protected is full, `popleft` its
deque (IndexError when empty, which happens exactly when
`protected_capacity = 0`) and delete the evicted entry; then append the
promoted binding.  Callers only promote keys not currently in protected. -/
def promote (s : SLRUState) (key : String) (value : Int) :
    SLRUState × Except Err Unit :=
  if s.protected_capacity ≤ s.protected_cache.length then
    match s.protected_cache with
    | [] => (s, .error .indexError)
    | _ :: t => ({ s with protected_cache := t ++ [(key, value)] }, .ok ())
  else
    ({ s with protected_cache := s.protected_cache ++ [(key, value)] }, .ok ())

/-- Source `SLRUCache.get`: protected hit returns in place; probation hit removes
the entry from probation and promotes it (any IndexError raised inside the
promotion escapes with the probation removal already performed); miss in
both returns -1. -/
def get (s : SLRUState) (key : String) : SLRUState × Except Err Int :=
  match lookupA key s.protected_cache with
  | some v => (s, .ok v)
  | none =>
    match lookupA key s.probation_cache with
    | some v =>
      match promote { s with probation_cache := eraseA key s.probation_cache } key v with
      | (s', .error e) => (s', .error e)
      | (s', .ok _) => (s', .ok v)
    | none => (s, .ok (-1))

/-- Source `SLRUCache.put`: overwrite in place in protected; a probation-resident
key is overwritten and promoted — the source never removes it from
probation, so the key ends up resident in both segments; a new key is
appended to probation, evicting the probation head first when full
(`popleft` raises IndexError on an empty deque). -/
def put (s : SLRUState) (key : String) (value : Int) :
    SLRUState × Except Err Unit :=
  if (lookupA key s.protected_cache).isSome then
    ({ s with protected_cache := setA key value s.protected_cache }, .ok ())
  else if (lookupA key s.probation_cache).isSome then
    promote { s with probation_cache := setA key value s.probation_cache } key value
  else if s.probation_capacity ≤ s.probation_cache.length then
    match s.probation_cache with
    | [] => (s, .error .indexError)
    | _ :: t => ({ s with probation_cache := t ++ [(key, value)] }, .ok ())
  else
    ({ s with probation_cache := s.probation_cache ++ [(key, value)] }, .ok ())

end SLRUCache

/-! ## ClockCache (cache_strategies.py lines 413-487) -/

structure ClockState where
  cache : List (String × Int)
  reference_bits : List (String × Nat)
  pointer : Nat
  capacity : Nat
  keys : List String
deriving DecidableEq, Repr

namespace ClockCache

def init (capacity : Option Int) : Except Err ClockState :=
  match capacity with
  | none => .error .typeError
  | some c =>
    if c ≤ 0 then .error .valueError
    else .ok { cache := [], reference_bits := [], pointer := 0,
               capacity := c.toNat, keys := [] }

/-- Source `ClockCache.get`: a hit sets the reference bit to 1, no reordering. -/
def get (s : ClockState) (key : String) : ClockState × Int :=
  match lookupA key s.cache with
  | none => (s, -1)
  | some v => ({ s with reference_bits := setA key 1 s.reference_bits }, v)

/-- The `while True` sweep of `ClockCache.put`, one examined slot per unit
of fuel: read `keys[pointer]` (IndexError if out of range) and its
reference bit (KeyError if missing); bit 0 means evict that slot and
install the new entry there (the pointer is left on the replaced slot);
bit 1 is cleared and the pointer advances modulo `capacity`.  The source
loop is unbounded; `fuelExhausted` marks it running past the bound proved
in `clock_sweep_finds_victim` below, which never happens from states the
cache can actually reach. -/
def sweep (fuel : Nat) (s : ClockState) (key : String) (value : Int) :
    ClockState × Except Err Unit :=
  match fuel with
  | 0 => (s, .error .fuelExhausted)
  | n + 1 =>
    match s.keys.get? s.pointer with
    | none => (s, .error .indexError)
    | some current =>
      match lookupA current s.reference_bits with
      | none => (s, .error .keyError)
      | some b =>
        if b = 0 then
          if (lookupA current s.cache).isSome then
            ({ s with cache := setA key value (eraseA current s.cache),
                      reference_bits := setA key 1 (eraseA current s.reference_bits),
                      keys := s.keys.set s.pointer key }, .ok ())
          else
            (s, .error .keyError)
        else
          sweep n { s with reference_bits := setA current 0 s.reference_bits,
                           pointer := (s.pointer + 1) % s.capacity } key value

/-- Source `ClockCache.put`: overwrite + set bit if present; append while under
capacity; otherwise run the clock sweep (2 x capacity fuel covers every
reachable state, see `clock_sweep_finds_victim`). -/
def put (s : ClockState) (key : String) (value : Int) :
    ClockState × Except Err Unit :=
  if (lookupA key s.cache).isSome then
    ({ s with cache := setA key value s.cache,
              reference_bits := setA key 1 s.reference_bits }, .ok ())
  else if s.cache.length < s.capacity then
    ({ s with cache := setA key value s.cache,
              reference_bits := setA key 1 s.reference_bits,
              keys := s.keys ++ [key] }, .ok ())
  else
    sweep (2 * s.capacity) s key value

end ClockCache

/-! ## Uniform policy interface

One sum type over the seven strategy states, with dispatching `get`/`put`
wrappers used by the router (total strategy methods are wrapped in `.ok`). -/

inductive PolicyState
  | lru (s : LRUState)
  | lfu (s : LFUState)
  | mru (s : MRUState)
  | fifo (s : FIFOState)
  | tinylfu (s : TinyLFUState)
  | slru (s : SLRUState)
  | clock (s : ClockState)
deriving DecidableEq, Repr

namespace PolicyState

def polGet : PolicyState → String → PolicyState × Except Err Int
  | lru s, k => (lru (LRUCache.get s k).1, .ok (LRUCache.get s k).2)
  | lfu s, k => (lfu (LFUCache.get s k).1, (LFUCache.get s k).2)
  | mru s, k => (mru (MRUCache.get s k).1, .ok (MRUCache.get s k).2)
  | fifo s, k => (fifo (FIFOCache.get s k).1, .ok (FIFOCache.get s k).2)
  | tinylfu s, k => (tinylfu (TinyLFUCache.get s k).1, .ok (TinyLFUCache.get s k).2)
  | slru s, k => (slru (SLRUCache.get s k).1, (SLRUCache.get s k).2)
  | clock s, k => (clock (ClockCache.get s k).1, .ok (ClockCache.get s k).2)

def polPut : PolicyState → String → Int → PolicyState × Except Err Unit
  | lru s, k, v => (lru (LRUCache.put s k v), .ok ())
  | lfu s, k, v => (lfu (LFUCache.put s k v).1, (LFUCache.put s k v).2)
  | mru s, k, v => (mru (MRUCache.put s k v), .ok ())
  | fifo s, k, v => (fifo (FIFOCache.put s k v).1, (FIFOCache.put s k v).2)
  | tinylfu s, k, v => (tinylfu (TinyLFUCache.put s k v).1, (TinyLFUCache.put s k v).2)
  | slru s, k, v => (slru (SLRUCache.put s k v).1, (SLRUCache.put s k v).2)
  | clock s, k, v => (clock (ClockCache.put s k v).1, (ClockCache.put s k v).2)

/-- Number of resident entries (SLRU: combined probation + protected count,
double-resident keys counted in each segment they occupy). -/
def sizeOf : PolicyState → Nat
  | lru s => s.cache.length
  | lfu s => s.cache.length
  | mru s => s.cache.length
  | fifo s => s.cache.length
  | tinylfu s => s.cache.length
  | slru s => s.probation_cache.length + s.protected_cache.length
  | clock s => s.cache.length

/-- The instance's total capacity (SLRU: probation + protected budgets). -/
def capOf : PolicyState → Nat
  | lru s => s.capacity
  | lfu s => s.capacity
  | mru s => s.capacity
  | fifo s => s.capacity
  | tinylfu s => s.capacity
  | slru s => s.probation_capacity + s.protected_capacity
  | clock s => s.capacity

/-- Key residency in the entry store (SLRU: either segment). -/
def resident : PolicyState → String → Bool
  | lru s, k => (lookupA k s.cache).isSome
  | lfu s, k => (lookupA k s.cache).isSome
  | mru s, k => (lookupA k s.cache).isSome
  | fifo s, k => (lookupA k s.cache).isSome
  | tinylfu s, k => (lookupA k s.cache).isSome
  | slru s, k => (lookupA k s.probation_cache).isSome || (lookupA k s.protected_cache).isSome
  | clock s, k => (lookupA k s.cache).isSome

end PolicyState

/-! ## Context router (cache.py `Cache`) -/

structure Router where
  default_policy : String
  default_capacity : Int
  context_cache : List (String × PolicyState)
  context_policies : List (String × (String × Int))
  hits : Nat
  misses : Nat
deriving DecidableEq, Repr

namespace Cache

/-- Source `Cache.__init__(default_policy='LRU', default_capacity=100)`. -/
def mkRouter (default_policy : String) (default_capacity : Int) : Router :=
  { default_policy := default_policy, default_capacity := default_capacity,
    context_cache := [], context_policies := [], hits := 0, misses := 0 }

def POLICY_NAMES : List String :=
  ["LRU", "LFU", "MRU", "FIFO", "TinyLFU", "SLRU", "Clock"]

/-- Source `capacity is not None and capacity <= 0`. -/
def badCapacity : Option Int → Bool
  | some c => c ≤ 0
  | none => false

/-- Source `Cache._create_cache`: dispatch on the policy name; each constructor
receives the raw optional capacity (SLRU keeps its default ratio 1/2).
An unknown name raises `ValueError` (spec kind: InvalidConfiguration). -/
def createCache (policy : String) (capacity : Option Int) : Except Err PolicyState :=
  if policy = "LRU" then (LRUCache.init capacity).map .lru
  else if policy = "LFU" then (LFUCache.init capacity).map .lfu
  else if policy = "MRU" then (MRUCache.init capacity).map .mru
  else if policy = "FIFO" then (FIFOCache.init capacity).map .fifo
  else if policy = "TinyLFU" then (TinyLFUCache.init capacity).map .tinylfu
  else if policy = "SLRU" then (SLRUCache.init capacity (Rat.divInt 1 2)).map .slru
  else if policy = "Clock" then (ClockCache.init capacity).map .clock
  else .error .invalidConfiguration

/-- Source `Cache.set_context_policy`: validates context, policy name, and an
*explicitly given* capacity; then records `{policy, capacity or default}`
in `context_policies` BEFORE `_create_cache` runs — so when the constructor
raises (capacity omitted: `None <= 0` is a TypeError) the configuration
record is already mutated. -/
def set_context_policy (r : Router) (context policy : String)
    (capacity : Option Int) : Router × Except Err Unit :=
  if context = "" then (r, .error .invalidArgument)
  else if policy ∉ POLICY_NAMES then (r, .error .invalidConfiguration)
  else if badCapacity capacity then (r, .error .invalidArgument)
  else
    let recordedCap :=
      match capacity with
      | some c => if c = 0 then r.default_capacity else c
      | none => r.default_capacity
    let r1 :=
      { r with context_policies := setA context (policy, recordedCap) r.context_policies }
    match createCache policy capacity with
    | .ok ps => ({ r1 with context_cache := setA context ps r1.context_cache }, .ok ())
    | .error e => (r1, .error e)

/-- Source `Cache.get_cache`: resolve a context or raise (spec kind:
UnknownContext); read-only. -/
def get_cache (r : Router) (context : String) : Except Err PolicyState :=
  match lookupA context r.context_cache with
  | some ps => .ok ps
  | none => .error .unknownContext

/-- Source `Cache.get`: validate the key, resolve the context, delegate, then
record a hit iff the returned value differs from the `-1` sentinel.  The
policy object is mutated in place, so its post-call state is stored back
even when the delegated `get` raises. -/
def routerGet (r : Router) (key context : String) : Router × Except Err Int :=
  if key = "" then (r, .error .invalidArgument)
  else
    match lookupA context r.context_cache with
    | none => (r, .error .unknownContext)
    | some ps =>
      match ps.polGet key with
      | (ps', .error e) =>
        ({ r with context_cache := setA context ps' r.context_cache }, .error e)
      | (ps', .ok v) =>
        if v ≠ -1 then
          ({ r with context_cache := setA context ps' r.context_cache,
                    hits := r.hits + 1 }, .ok v)
        else
          ({ r with context_cache := setA context ps' r.context_cache,
                    misses := r.misses + 1 }, .ok v)

/-- Source `Cache.put`: validate, delegate, then unconditionally record a miss. -/
def routerPut (r : Router) (key : String) (value : Int) (context : String) :
    Router × Except Err Unit :=
  if key = "" then (r, .error .invalidArgument)
  else
    match lookupA context r.context_cache with
    | none => (r, .error .unknownContext)
    | some ps =>
      match ps.polPut key value with
      | (ps', .error e) =>
        ({ r with context_cache := setA context ps' r.context_cache }, .error e)
      | (ps', .ok _) =>
        ({ r with context_cache := setA context ps' r.context_cache,
                  misses := r.misses + 1 }, .ok ())

/-- Source `Cache.clear_cache`: `if context:` — a non-empty context is looked up
and its policy object's `clear()` called; no strategy class defines a
`clear` method, so the attribute lookup raises AttributeError.  With no
context (or the falsy empty string) the loop over all registered caches
raises the same AttributeError at its first element, and succeeds
vacuously when nothing is registered. -/
def clear_cache (r : Router) (context : Option String) : Router × Except Err Unit :=
  match context with
  | some ctx =>
    if ctx ≠ "" then
      if (lookupA ctx r.context_cache).isSome then (r, .error .attributeError)
      else (r, .error .unknownContext)
    else if r.context_cache.isEmpty then (r, .ok ()) else (r, .error .attributeError)
  | none =>
    if r.context_cache.isEmpty then (r, .ok ()) else (r, .error .attributeError)

end Cache

/-! ## Operation sequences

A policy-level call trace.  `runOps` applies the calls in order; a raised
exception propagates out of the calling sequence, so the run stops there,
keeping every mutation the failing call made before raising. -/

inductive Op
  | opGet (key : String)
  | opPut (key : String) (value : Int)
deriving DecidableEq, Repr

def polStep (ps : PolicyState) : Op → PolicyState × Except Err Unit
  | .opGet k => ((ps.polGet k).1, (ps.polGet k).2.map fun _ => ())
  | .opPut k v => ps.polPut k v

def runOps (ps : PolicyState) : List Op → PolicyState
  | [] => ps
  | op :: rest =>
    match polStep ps op with
    | (ps', .ok _) => runOps ps' rest
    | (ps', .error _) => ps'

/-- The raised exception of a call result, if any. -/
def Except.errOf {α : Type} : Except Err α → Option Err
  | .ok _ => none
  | .error e => some e

instance {ε α : Type} [DecidableEq ε] [DecidableEq α] : DecidableEq (Except ε α) := fun a b =>
  match a, b with
  | .ok x, .ok y =>
    match decEq x y with
    | isTrue h => isTrue (by rw [h])
    | isFalse h => isFalse (fun hh => h (Except.ok.inj hh))
  | .ok _, .error _ => isFalse (fun hh => Except.noConfusion hh)
  | .error _, .ok _ => isFalse (fun hh => Except.noConfusion hh)
  | .error e, .error f =>
    match decEq e f with
    | isTrue h => isTrue (by rw [h])
    | isFalse h => isFalse (fun hh => h (Except.error.inj hh))

/-- A router-level call, for stating properties uniformly over the whole
mutating surface of `Cache`.  `stepRouter` projects each call to its
post-call router state and the exception it raised, if any. -/
inductive RouterOp
  | setPolicy (context policy : String) (capacity : Option Int)
  | rGet (key context : String)
  | rPut (key : String) (value : Int) (context : String)
  | rClear (context : Option String)
deriving DecidableEq, Repr

def stepRouter (r : Router) : RouterOp → Router × Option Err
  | .setPolicy ctx pol cap =>
    ((Cache.set_context_policy r ctx pol cap).1, (Cache.set_context_policy r ctx pol cap).2.errOf)
  | .rGet k ctx =>
    ((Cache.routerGet r k ctx).1, (Cache.routerGet r k ctx).2.errOf)
  | .rPut k v ctx =>
    ((Cache.routerPut r k v ctx).1, (Cache.routerPut r k v ctx).2.errOf)
  | .rClear octx =>
    ((Cache.clear_cache r octx).1, (Cache.clear_cache r octx).2.errOf)

/-- The three error kinds of the spec's taxonomy (section 7), raised by the
router's own validation; strategy-level Python exceptions are never of
these kinds. -/
def Err.routerKind : Err → Bool
  | .invalidArgument => true
  | .invalidConfiguration => true
  | .unknownContext => true
  | _ => false

/-- The size invariant each policy maintains: entry count bounded by
capacity — for SLRU, each segment bounded by its own budget (which is
strictly stronger than the combined bound and is what `put`'s branch
conditions actually re-establish). -/
def PolicyState.goodSize : PolicyState → Prop
  | .slru s => s.probation_cache.length ≤ s.probation_capacity ∧
               s.protected_cache.length ≤ s.protected_capacity
  | ps => ps.sizeOf ≤ ps.capOf

/-- Number of keys in `keys` whose reference bit is currently set; the
clock sweep's termination measure. -/
def bitsOnes (bits : List (String × Nat)) (keys : List String) : Nat :=
  (keys.filter (fun x => (lookupA x bits).getD 0 != 0)).length

/-- The value a key is resident with in an SLRU state (protected segment
shadowing probation, in the order `get` consults them). -/
def slruPeek (s : SLRUState) (k : String) : Option Int :=
  match lookupA k s.protected_cache with
  | some v => some v
  | none => lookupA k s.probation_cache

/-! ## Claim C1 -/

/-- Claim C1 (failing-input evaluation): the round-trip `put(k, v)` then
`get(k)` does NOT return `v` when `k` is already resident in a TinyLFU
cache — `TinyLFUCache.put` on a present key only moves it to the
most-recent end and never stores the new value, so after `put("k", 1)`,
`put("k", 2)` the key is still bound to 1 and `get("k")` returns 1. -/
theorem tinylfu_put_existing_keeps_old_value :
    TinyLFUCache.init (some 2) = .ok { cache := [], frequency := [], capacity := 2 } ∧
    ((TinyLFUCache.put { cache := [], frequency := [], capacity := 2 } "k" 1).2 = .ok ()) ∧
    (let s1 := (TinyLFUCache.put { cache := [], frequency := [], capacity := 2 } "k" 1).1
     let s2 := (TinyLFUCache.put s1 "k" 2).1
     (TinyLFUCache.put s1 "k" 2).2 = .ok () ∧
     lookupA "k" s2.cache = some 1 ∧
     (TinyLFUCache.get s2 "k").2 = 1) := by
  decide

/-! ## Claim C3 -/

/-- Claim C3 (failing-input evaluation): `set_context_policy` with the
capacity argument unset does not succeed — the validated record
`{policy, default capacity}` is written to `context_policies`, but the raw
`None` is then handed to the strategy constructor whose `capacity <= 0`
comparison raises `TypeError`, so no policy instance is ever created. -/
theorem set_context_policy_unset_capacity_type_error :
    Cache.set_context_policy (Cache.mkRouter "LRU" 100) "ctx" "LRU" none =
      ({ Cache.mkRouter "LRU" 100 with context_policies := [("ctx", ("LRU", 100))] },
       .error .typeError) := by
  decide

/-! ## Claim C4 -/

/-- Claim C4 (failing-input evaluation): with a registered context "ctx"
holding key "k", `clear_cache("ctx")` does not succeed: no strategy class
defines a `clear` method, so the call raises `AttributeError`; the entries
survive (`get` still returns the stored value afterwards), and
`clear_cache()` with no context fails the same way. -/
theorem clear_cache_attribute_error :
    (let r1 := (Cache.set_context_policy (Cache.mkRouter "LRU" 100) "ctx" "LRU" (some 2)).1
     let r2 := (Cache.routerPut r1 "k" 7 "ctx").1
     Cache.clear_cache r2 (some "ctx") = (r2, .error .attributeError) ∧
     Cache.clear_cache r2 none = (r2, .error .attributeError) ∧
     (Cache.routerGet r2 "k" "ctx").2 = .ok 7) := by
  decide

/-! ## Claim C6: counterexample -/

/-- Claim C6 (counterexample): the `-1` miss sentinel is NOT distinguishable
from a legitimately stored value.  After `put("k", -1)` the key is resident
with value `-1`, yet the router `get` that finds it takes the sentinel
branch: it returns `-1` and records a miss (hits stays 0, misses goes from
1 to 2), contradicting "a get that finds a resident key records a hit". -/
theorem router_get_resident_minus_one_records_miss :
    (let r1 := (Cache.set_context_policy (Cache.mkRouter "LRU" 100) "ctx" "LRU" (some 2)).1
     let r2 := (Cache.routerPut r1 "k" (-1) "ctx").1
     (∀ ps, lookupA "ctx" r2.context_cache = some ps → ps.resident "k" = true) ∧
     r2.hits = 0 ∧ r2.misses = 1 ∧
     (Cache.routerGet r2 "k" "ctx").2 = .ok (-1) ∧
     (Cache.routerGet r2 "k" "ctx").1.hits = 0 ∧
     (Cache.routerGet r2 "k" "ctx").1.misses = 2) := by
  decide

/-! ## Claim C9: counterexample -/

/-- Claim C9 (counterexample): a key CAN be resident in both SLRU segments
at once.  With capacity 2 and the default ratio 1/2, `put("a", 1)` places
"a" in probation; a second `put("a", 2)` takes the probation branch, which
promotes "a" into protected but never removes it from probation, leaving
"a" resident in both segments. -/
theorem slru_put_probation_double_residency :
    SLRUCache.init (some 2) (Rat.divInt 1 2) =
      .ok { probation_cache := [], protected_cache := [],
            protected_capacity := 1, probation_capacity := 1 } ∧
    (let s1 := (SLRUCache.put { probation_cache := [], protected_cache := [],
                                protected_capacity := 1, probation_capacity := 1 } "a" 1).1
     let s2 := (SLRUCache.put s1 "a" 2).1
     (SLRUCache.put s1 "a" 2).2 = .ok () ∧
     lookupA "a" s2.probation_cache = some 2 ∧
     lookupA "a" s2.protected_cache = some 2) := by
  decide

/-! ## Claim C10: counterexample -/

/-- Claim C10 (counterexample): with valid construction parameters
capacity 1 and the default ratio 1/2 (so `protected_capacity = floor(0.5)
= 0`), `put("a", 1)` succeeds into probation, but `get("a")` hits in
probation and the promotion pops the empty protected deque: the call
raises IndexError instead of returning the value (and the probation entry
is already gone when it does). -/
theorem slru_capacity_one_get_index_error :
    SLRUCache.init (some 1) (Rat.divInt 1 2) =
      .ok { probation_cache := [], protected_cache := [],
            protected_capacity := 0, probation_capacity := 1 } ∧
    (let s1 := (SLRUCache.put { probation_cache := [], protected_cache := [],
                                protected_capacity := 0, probation_capacity := 1 } "a" 1).1
     (SLRUCache.put { probation_cache := [], protected_cache := [],
                      protected_capacity := 0, probation_capacity := 1 } "a" 1).2 = .ok () ∧
     lookupA "a" s1.probation_cache = some 1 ∧
     SLRUCache.get s1 "a" =
       ({ probation_cache := [], protected_cache := [],
          protected_capacity := 0, probation_capacity := 1 }, .error .indexError)) := by
  decide

/-! ## Association-list lemmas -/

theorem lookupA_setA_self {κ α : Type} [DecidableEq κ] (k : κ) (v : α) (l : List (κ × α)) :
    lookupA k (setA k v l) = some v := by
  induction l with
  | nil => simp [setA, lookupA]
  | cons p t ih =>
    obtain ⟨k', v'⟩ := p
    by_cases h : k' = k
    · simp [setA, h, lookupA]
    · simp [setA, h, lookupA, ih]

theorem lookupA_setA_ne {κ α : Type} [DecidableEq κ] {k k' : κ} (v : α) (l : List (κ × α))
    (h : k' ≠ k) : lookupA k' (setA k v l) = lookupA k' l := by
  induction l with
  | nil => simp [setA, lookupA, Ne.symm h]
  | cons p t ih =>
    obtain ⟨k₀, v₀⟩ := p
    by_cases h0 : k₀ = k
    · subst h0
      simp [setA, lookupA, Ne.symm h]
    · simp [setA, h0, lookupA, ih]

theorem lookupA_eraseA_ne {κ α : Type} [DecidableEq κ] {k k' : κ} (l : List (κ × α))
    (h : k' ≠ k) : lookupA k' (eraseA k l) = lookupA k' l := by
  induction l with
  | nil => simp [eraseA]
  | cons p t ih =>
    obtain ⟨k₀, v₀⟩ := p
    by_cases h0 : k₀ = k
    · subst h0
      simp [eraseA, lookupA, Ne.symm h]
    · simp [eraseA, h0, lookupA, ih]

theorem lookupA_isSome_of_mem_keys {κ α : Type} [DecidableEq κ] {k : κ} {l : List (κ × α)}
    (h : k ∈ l.map Prod.fst) : (lookupA k l).isSome := by
  induction l with
  | nil => simp at h
  | cons p t ih =>
    obtain ⟨k₀, v₀⟩ := p
    by_cases h0 : k₀ = k
    · simp [lookupA, h0]
    · simp only [List.map_cons, List.mem_cons] at h
      rcases h with h | h
      · exact absurd h.symm h0
      · simp [lookupA, h0, ih h]

theorem length_setA_le {κ α : Type} [DecidableEq κ] (k : κ) (v : α) (l : List (κ × α)) :
    (setA k v l).length ≤ l.length + 1 := by
  induction l with
  | nil => simp [setA]
  | cons p t ih =>
    obtain ⟨k₀, v₀⟩ := p
    by_cases h0 : k₀ = k <;> simp [setA, h0] <;> omega

theorem length_setA_of_isSome {κ α : Type} [DecidableEq κ] {k : κ} {l : List (κ × α)} (v : α)
    (h : (lookupA k l).isSome) : (setA k v l).length = l.length := by
  induction l with
  | nil => simp [lookupA] at h
  | cons p t ih =>
    obtain ⟨k₀, v₀⟩ := p
    by_cases h0 : k₀ = k
    · simp [setA, h0]
    · simp only [lookupA, h0, if_neg] at h
      simp [setA, h0, ih h]

theorem length_eraseA_le {κ α : Type} [DecidableEq κ] (k : κ) (l : List (κ × α)) :
    (eraseA k l).length ≤ l.length := by
  induction l with
  | nil => simp [eraseA]
  | cons p t ih =>
    obtain ⟨k₀, v₀⟩ := p
    by_cases h0 : k₀ = k <;> simp [eraseA, h0] <;> omega

theorem length_eraseA_of_isSome {κ α : Type} [DecidableEq κ] {k : κ} {l : List (κ × α)}
    (h : (lookupA k l).isSome) : (eraseA k l).length + 1 = l.length := by
  induction l with
  | nil => simp [lookupA] at h
  | cons p t ih =>
    obtain ⟨k₀, v₀⟩ := p
    by_cases h0 : k₀ = k
    · simp [eraseA, h0]
    · simp only [lookupA, h0, if_neg] at h
      simp [eraseA, h0, ← ih h]

theorem length_moveToEnd {κ α : Type} [DecidableEq κ] (k : κ) (l : List (κ × α)) :
    (moveToEnd k l).length = l.length := by
  unfold moveToEnd
  cases hl : lookupA k l with
  | none => rfl
  | some v =>
    have := length_eraseA_of_isSome (k := k) (l := l) (by simp [hl])
    simp only [List.length_append, List.length_cons, List.length_nil]
    omega

theorem lookupA_append_of_none {κ α : Type} [DecidableEq κ] {k : κ} {l1 : List (κ × α)}
    (l2 : List (κ × α)) (h : lookupA k l1 = none) :
    lookupA k (l1 ++ l2) = lookupA k l2 := by
  induction l1 with
  | nil => simp
  | cons p t ih =>
    obtain ⟨k₀, v₀⟩ := p
    by_cases h0 : k₀ = k
    · simp [lookupA, h0] at h
    · simp only [lookupA, h0, if_neg] at h
      simp [lookupA, h0, ih h]

theorem lookupA_tail_of_none {κ α : Type} [DecidableEq κ] {k : κ} {p : κ × α}
    {t : List (κ × α)} (h : lookupA k (p :: t) = none) : lookupA k t = none := by
  obtain ⟨k₀, v₀⟩ := p
  by_cases h0 : k₀ = k
  · simp [lookupA, h0] at h
  · simpa [lookupA, h0] using h

theorem lookupA_eraseA_self_of_nodup {κ α : Type} [DecidableEq κ] {k : κ} {l : List (κ × α)}
    (hnd : (l.map Prod.fst).Nodup) : lookupA k (eraseA k l) = none := by
  induction l with
  | nil => simp [eraseA, lookupA]
  | cons p t ih =>
    obtain ⟨k₀, v₀⟩ := p
    simp only [List.map_cons, List.nodup_cons] at hnd
    by_cases h0 : k₀ = k
    · subst h0
      simp only [eraseA, if_pos rfl]
      cases hl : lookupA k₀ t with
      | none => exact hl
      | some w =>
        have : k₀ ∈ t.map Prod.fst := by
          clear ih hnd
          induction t with
          | nil => simp [lookupA] at hl
          | cons q u ihh =>
            obtain ⟨k₁, v₁⟩ := q
            by_cases h1 : k₁ = k₀
            · simp [h1]
            · simp only [lookupA, h1, if_neg] at hl
              simp [ihh hl]
        exact absurd this hnd.1
    · simp [eraseA, h0, lookupA, ih hnd.2]

theorem setA_eq_self_of_lookupA {κ α : Type} [DecidableEq κ] {k : κ} {v : α}
    {l : List (κ × α)} (h : lookupA k l = some v) : setA k v l = l := by
  induction l with
  | nil => simp [lookupA] at h
  | cons p t ih =>
    obtain ⟨k₀, v₀⟩ := p
    by_cases h0 : k₀ = k
    · subst h0
      rw [lookupA, if_pos rfl] at h
      injection h with h
      simp [setA, h]
    · simp only [lookupA, h0, if_neg] at h
      simp [setA, h0, ih h]


/-! ## Size preservation, per policy (claim C2 groundwork) -/

theorem lru_get_size (s : LRUState) (k : String) :
    (LRUCache.get s k).1.cache.length = s.cache.length ∧
    (LRUCache.get s k).1.capacity = s.capacity := by
  unfold LRUCache.get
  cases hl : lookupA k s.cache with
  | none => exact ⟨rfl, rfl⟩
  | some v => exact ⟨length_moveToEnd k s.cache, rfl⟩

theorem mru_get_size (s : MRUState) (k : String) :
    (MRUCache.get s k).1.cache.length = s.cache.length ∧
    (MRUCache.get s k).1.capacity = s.capacity := by
  unfold MRUCache.get
  cases hl : lookupA k s.cache with
  | none => exact ⟨rfl, rfl⟩
  | some v => exact ⟨rfl, rfl⟩

theorem lru_put_size (s : LRUState) (k : String) (v : Int)
    (h : s.cache.length ≤ s.capacity) :
    (LRUCache.put s k v).cache.length ≤ s.capacity ∧
    (LRUCache.put s k v).capacity = s.capacity := by
  by_cases hp : (lookupA k s.cache).isSome
  · have h1 : (moveToEnd k s.cache).length = s.cache.length := length_moveToEnd k s.cache
    have h2 := length_setA_le k v (moveToEnd k s.cache)
    simp only [LRUCache.put]
    rw [if_pos hp]
    constructor
    · split
      · simp only [List.length_tail]
        omega
      · next hge =>
        dsimp only
        omega
    · split <;> rfl
  · have h2 := length_setA_le k v s.cache
    simp only [LRUCache.put]
    rw [if_neg hp]
    constructor
    · split
      · simp only [List.length_tail]
        omega
      · next hge =>
        dsimp only
        omega
    · split <;> rfl

theorem mru_put_size (s : MRUState) (k : String) (v : Int)
    (h : s.cache.length ≤ s.capacity) :
    (MRUCache.put s k v).cache.length ≤ s.capacity ∧
    (MRUCache.put s k v).capacity = s.capacity := by
  by_cases hp : (lookupA k s.cache).isSome
  · have h1 : (moveToEnd k s.cache).length = s.cache.length := length_moveToEnd k s.cache
    have h2 := length_setA_le k v (moveToEnd k s.cache)
    simp only [MRUCache.put]
    rw [if_pos hp]
    constructor
    · split
      · simp only [List.length_dropLast]
        omega
      · next hge =>
        dsimp only
        omega
    · split <;> rfl
  · have h2 := length_setA_le k v s.cache
    simp only [MRUCache.put]
    rw [if_neg hp]
    constructor
    · split
      · simp only [List.length_dropLast]
        omega
      · next hge =>
        dsimp only
        omega
    · split <;> rfl

theorem fifo_put_size (s : FIFOState) (k : String) (v : Int)
    (h : s.cache.length ≤ s.capacity) :
    (FIFOCache.put s k v).1.cache.length ≤ s.capacity ∧
    (FIFOCache.put s k v).1.capacity = s.capacity := by
  unfold FIFOCache.put
  split
  · next hp =>
    have h1 := length_eraseA_of_isSome (k := k) (l := s.cache) hp
    refine ⟨?_, rfl⟩
    simp only [List.length_append, List.length_cons, List.length_nil]
    omega
  · next hp =>
    split
    · next hfull =>
      cases hc : s.cache with
      | nil => exact ⟨h, rfl⟩
      | cons p t =>
        have ht : (p :: t).length ≤ s.capacity := hc ▸ h
        refine ⟨?_, rfl⟩
        simp only [List.length_append, List.length_cons, List.length_nil] at ht ⊢
        omega
    · next hfull =>
      refine ⟨?_, rfl⟩
      simp only [List.length_append, List.length_cons, List.length_nil]
      omega

theorem minFreqKey_mem (s : TinyLFUState) (k0 : String) (rest : List String) :
    TinyLFUCache.minFreqKey s k0 rest = k0 ∨ TinyLFUCache.minFreqKey s k0 rest ∈ rest := by
  induction rest generalizing k0 with
  | nil => left; rfl
  | cons x t ih =>
    unfold TinyLFUCache.minFreqKey
    split
    · rcases ih x with h | h
      · right; simp [h]
      · right; simp [h]
    · rcases ih k0 with h | h
      · left; exact h
      · right; simp [h]

theorem tinylfu_get_size (s : TinyLFUState) (k : String) :
    (TinyLFUCache.get s k).1.cache.length = s.cache.length ∧
    (TinyLFUCache.get s k).1.capacity = s.capacity := by
  unfold TinyLFUCache.get
  cases hl : lookupA k s.cache with
  | none => exact ⟨rfl, rfl⟩
  | some v => exact ⟨length_moveToEnd k s.cache, rfl⟩

theorem tinylfu_evict_size (s : TinyLFUState) :
    (TinyLFUCache.evict s).1.cache.length ≤ s.cache.length ∧
    ((TinyLFUCache.evict s).2 = .ok () → (TinyLFUCache.evict s).1.cache.length + 1 = s.cache.length) ∧
    (TinyLFUCache.evict s).1.capacity = s.capacity := by
  unfold TinyLFUCache.evict
  cases hc : s.cache with
  | nil =>
    refine ⟨?_, ?_, rfl⟩
    · show s.cache.length ≤ ([] : List (String × Int)).length
      rw [hc]
    · intro h
      exact Except.noConfusion h
  | cons p t =>
    obtain ⟨k0, v0⟩ := p
    dsimp only
    have hvick : TinyLFUCache.minFreqKey s k0 (t.map Prod.fst) ∈ ((k0, v0) :: t).map Prod.fst := by
      rcases minFreqKey_mem s k0 (t.map Prod.fst) with h | h
      · simp [h]
      · simp only [List.map_cons, List.mem_cons]
        right; exact h
    have hsome : (lookupA (TinyLFUCache.minFreqKey s k0 (t.map Prod.fst)) s.cache).isSome := by
      rw [hc]; exact lookupA_isSome_of_mem_keys hvick
    have hlen := length_eraseA_of_isSome
      (k := TinyLFUCache.minFreqKey s k0 (t.map Prod.fst)) (l := s.cache) hsome
    cases hf : lookupA (TinyLFUCache.minFreqKey s k0 (t.map Prod.fst)) s.frequency with
    | none =>
      refine ⟨?_, ?_, rfl⟩
      · show s.cache.length ≤ ((k0, v0) :: t).length
        rw [hc]
      · intro h
        exact Except.noConfusion h
    | some f =>
      rw [← hc]
      have hle := length_eraseA_le (TinyLFUCache.minFreqKey s k0 (t.map Prod.fst)) s.cache
      exact ⟨hle, fun _ => hlen, rfl⟩

theorem tinylfu_put_size (s : TinyLFUState) (k : String) (v : Int)
    (h : s.cache.length ≤ s.capacity) :
    (TinyLFUCache.put s k v).1.cache.length ≤ s.capacity ∧
    (TinyLFUCache.put s k v).1.capacity = s.capacity := by
  unfold TinyLFUCache.put
  split
  · next hp =>
    exact ⟨by rw [length_moveToEnd]; exact h, rfl⟩
  · next hp =>
    split
    · next hfull =>
      rcases hev : TinyLFUCache.evict s with ⟨s1, r⟩
      have hsz := tinylfu_evict_size s
      rw [hev] at hsz
      cases r with
      | error e => exact ⟨le_trans hsz.1 h, hsz.2.2⟩
      | ok u =>
        have hone : s1.cache.length + 1 = s.cache.length := hsz.2.1 rfl
        have := length_setA_le k v s1.cache
        exact ⟨by dsimp only; omega, hsz.2.2⟩
    · next hfull =>
      have := length_setA_le k v s.cache
      exact ⟨by dsimp only; omega, rfl⟩

theorem lfu_update_size (s : LFUState) (k : String) (v : Int) (f : Nat)
    (hp : (lookupA k s.cache).isSome) :
    (LFUCache.update s k v f).1.cache.length = s.cache.length ∧
    (LFUCache.update s k v f).1.capacity = s.capacity := by
  unfold LFUCache.update
  dsimp only
  have hset := length_setA_of_isSome (k := k) (l := s.cache) (v, f + 1) hp
  split
  · next hin =>
    split <;> exact ⟨hset, rfl⟩
  · next hin => exact ⟨hset, rfl⟩

theorem lfu_evict_size (s : LFUState) :
    (LFUCache.evict s).1.cache.length ≤ s.cache.length ∧
    ((LFUCache.evict s).2 = .ok () → (LFUCache.evict s).1.cache.length + 1 = s.cache.length) ∧
    (LFUCache.evict s).1.capacity = s.capacity := by
  unfold LFUCache.evict
  cases hb : LFUCache.bucketAt s s.min_freq with
  | nil =>
    refine ⟨Nat.le_refl _, ?_, rfl⟩
    intro h
    exact Except.noConfusion h
  | cons victim t =>
    dsimp only
    split
    · next hvs =>
      have hlen := length_eraseA_of_isSome (k := victim) (l := s.cache) hvs
      have hle := length_eraseA_le victim s.cache
      exact ⟨hle, fun _ => hlen, rfl⟩
    · next hvs =>
      refine ⟨Nat.le_refl _, ?_, rfl⟩
      intro h
      exact Except.noConfusion h

theorem lfu_get_size (s : LFUState) (k : String) :
    (LFUCache.get s k).1.cache.length = s.cache.length ∧
    (LFUCache.get s k).1.capacity = s.capacity := by
  unfold LFUCache.get
  cases hl : lookupA k s.cache with
  | none => exact ⟨rfl, rfl⟩
  | some p =>
    obtain ⟨v, f⟩ := p
    dsimp only
    have hp : (lookupA k s.cache).isSome := by rw [hl]; rfl
    have hthis := lfu_update_size s k v f hp
    rcases hu : LFUCache.update s k v f with ⟨s', r⟩
    rw [hu] at hthis
    cases r with
    | error e => exact hthis
    | ok u => exact hthis

theorem lfu_put_size (s : LFUState) (k : String) (v : Int)
    (h : s.cache.length ≤ s.capacity) :
    (LFUCache.put s k v).1.cache.length ≤ s.capacity ∧
    (LFUCache.put s k v).1.capacity = s.capacity := by
  unfold LFUCache.put
  split
  · next hcap => exact ⟨h, rfl⟩
  · next hcap =>
    cases hl : lookupA k s.cache with
    | some p =>
      obtain ⟨w, f⟩ := p
      dsimp only
      have hp : (lookupA k s.cache).isSome := by rw [hl]; rfl
      have hthis := lfu_update_size s k v f hp
      exact ⟨hthis.1 ▸ h, hthis.2⟩
    | none =>
      dsimp only
      split
      · next hfull =>
        rcases hev : LFUCache.evict s with ⟨s1, r⟩
        have hsz := lfu_evict_size s
        rw [hev] at hsz
        cases r with
        | error e => exact ⟨le_trans hsz.1 h, hsz.2.2⟩
        | ok u =>
          have hone : s1.cache.length + 1 = s.cache.length := hsz.2.1 rfl
          have hset := length_setA_le k (v, 1) s1.cache
          refine ⟨?_, hsz.2.2⟩
          show (setA k (v, 1) s1.cache).length ≤ s.capacity
          omega
      · next hfull =>
        have hset := length_setA_le k (v, 1) s.cache
        refine ⟨?_, rfl⟩
        show (setA k (v, 1) s.cache).length ≤ s.capacity
        omega

theorem slru_promote_size (s : SLRUState) (k : String) (v : Int)
    (hq : s.protected_cache.length ≤ s.protected_capacity) :
    (SLRUCache.promote s k v).1.probation_cache = s.probation_cache ∧
    (SLRUCache.promote s k v).1.protected_cache.length ≤ s.protected_capacity ∧
    (SLRUCache.promote s k v).1.probation_capacity = s.probation_capacity ∧
    (SLRUCache.promote s k v).1.protected_capacity = s.protected_capacity := by
  unfold SLRUCache.promote
  split
  · next hfull =>
    cases hq2 : s.protected_cache with
    | nil => exact ⟨rfl, by rw [hq2] at hq ⊢; exact hq, rfl, rfl⟩
    | cons p t =>
      refine ⟨rfl, ?_, rfl, rfl⟩
      have : (p :: t).length ≤ s.protected_capacity := hq2 ▸ hq
      simp only [List.length_append, List.length_cons, List.length_nil] at this ⊢
      omega
  · next hfull =>
    refine ⟨rfl, ?_, rfl, rfl⟩
    simp only [List.length_append, List.length_cons, List.length_nil]
    omega

theorem slru_get_size (s : SLRUState) (k : String)
    (hp : s.probation_cache.length ≤ s.probation_capacity)
    (hq : s.protected_cache.length ≤ s.protected_capacity) :
    (SLRUCache.get s k).1.probation_cache.length ≤ s.probation_capacity ∧
    (SLRUCache.get s k).1.protected_cache.length ≤ s.protected_capacity ∧
    (SLRUCache.get s k).1.probation_capacity = s.probation_capacity ∧
    (SLRUCache.get s k).1.protected_capacity = s.protected_capacity := by
  unfold SLRUCache.get
  cases h1 : lookupA k s.protected_cache with
  | some v => exact ⟨hp, hq, rfl, rfl⟩
  | none =>
    cases h2 : lookupA k s.probation_cache with
    | none => exact ⟨hp, hq, rfl, rfl⟩
    | some v =>
      dsimp only
      have hpro := slru_promote_size
        { s with probation_cache := eraseA k s.probation_cache } k v hq
      rcases hprom : SLRUCache.promote
        { s with probation_cache := eraseA k s.probation_cache } k v with ⟨s', r⟩
      rw [hprom] at hpro
      have herase := length_eraseA_le k s.probation_cache
      cases r with
      | error e =>
        refine ⟨?_, hpro.2.1, hpro.2.2.1, hpro.2.2.2⟩
        rw [hpro.1]
        dsimp only
        omega
      | ok u =>
        refine ⟨?_, hpro.2.1, hpro.2.2.1, hpro.2.2.2⟩
        rw [hpro.1]
        dsimp only
        omega

theorem slru_put_size (s : SLRUState) (k : String) (v : Int)
    (hp : s.probation_cache.length ≤ s.probation_capacity)
    (hq : s.protected_cache.length ≤ s.protected_capacity) :
    (SLRUCache.put s k v).1.probation_cache.length ≤ s.probation_capacity ∧
    (SLRUCache.put s k v).1.protected_cache.length ≤ s.protected_capacity ∧
    (SLRUCache.put s k v).1.probation_capacity = s.probation_capacity ∧
    (SLRUCache.put s k v).1.protected_capacity = s.protected_capacity := by
  unfold SLRUCache.put
  split
  · next h1 =>
    refine ⟨hp, ?_, rfl, rfl⟩
    rw [length_setA_of_isSome _ h1]
    exact hq
  · next h1 =>
    split
    · next h2 =>
      have hpro := slru_promote_size
        { s with probation_cache := setA k v s.probation_cache } k v hq
      rcases hprom : SLRUCache.promote
        { s with probation_cache := setA k v s.probation_cache } k v with ⟨s', r⟩
      rw [hprom] at hpro
      have hset := length_setA_of_isSome (k := k) (l := s.probation_cache) v h2
      refine ⟨?_, hpro.2.1, hpro.2.2.1, hpro.2.2.2⟩
      rw [hpro.1]
      dsimp only
      omega
    · next h2 =>
      split
      · next hfull =>
        cases hc : s.probation_cache with
        | nil => exact ⟨hp, hq, rfl, rfl⟩
        | cons p t =>
          refine ⟨?_, hq, rfl, rfl⟩
          have : (p :: t).length ≤ s.probation_capacity := hc ▸ hp
          simp only [List.length_append, List.length_cons, List.length_nil] at this ⊢
          omega
      · next hfull =>
        refine ⟨?_, hq, rfl, rfl⟩
        simp only [List.length_append, List.length_cons, List.length_nil]
        omega

theorem clock_get_size (s : ClockState) (k : String) :
    (ClockCache.get s k).1.cache.length = s.cache.length ∧
    (ClockCache.get s k).1.capacity = s.capacity := by
  unfold ClockCache.get
  cases hl : lookupA k s.cache with
  | none => exact ⟨rfl, rfl⟩
  | some v => exact ⟨rfl, rfl⟩

theorem clock_sweep_size (fuel : Nat) :
    ∀ (s : ClockState) (k : String) (v : Int), s.cache.length ≤ s.capacity →
    (ClockCache.sweep fuel s k v).1.cache.length ≤ s.capacity ∧
    (ClockCache.sweep fuel s k v).1.capacity = s.capacity := by
  induction fuel with
  | zero => intro s k v h; exact ⟨h, rfl⟩
  | succ n ih =>
    intro s k v h
    unfold ClockCache.sweep
    cases hk : s.keys.get? s.pointer with
    | none => exact ⟨h, rfl⟩
    | some current =>
      dsimp only
      cases hb : lookupA current s.reference_bits with
      | none => exact ⟨h, rfl⟩
      | some b =>
        dsimp only
        by_cases hb0 : b = 0
        · rw [if_pos hb0]
          by_cases hcur : (lookupA current s.cache).isSome
          · rw [if_pos hcur]
            have herase := length_eraseA_of_isSome (k := current) (l := s.cache) hcur
            have hset := length_setA_le k v (eraseA current s.cache)
            exact ⟨by dsimp only; omega, rfl⟩
          · rw [if_neg hcur]
            exact ⟨h, rfl⟩
        · rw [if_neg hb0]
          exact ih _ k v h

theorem clock_put_size (s : ClockState) (k : String) (v : Int)
    (h : s.cache.length ≤ s.capacity) :
    (ClockCache.put s k v).1.cache.length ≤ s.capacity ∧
    (ClockCache.put s k v).1.capacity = s.capacity := by
  unfold ClockCache.put
  split
  · next hp =>
    rw [length_setA_of_isSome _ hp]
    exact ⟨h, rfl⟩
  · next hp =>
    split
    · next hlt =>
      have hset := length_setA_le k v s.cache
      exact ⟨by dsimp only; omega, rfl⟩
    · next hlt =>
      exact clock_sweep_size (2 * s.capacity) s k v h

theorem polStep_good (ps : PolicyState) (op : Op) (h : ps.goodSize) :
    (polStep ps op).1.goodSize ∧ (polStep ps op).1.capOf = ps.capOf := by
  cases op with
  | opGet k =>
    cases ps with
    | lru s =>
      have hg := lru_get_size s k
      refine ⟨?_, hg.2⟩
      show (LRUCache.get s k).1.cache.length ≤ (LRUCache.get s k).1.capacity
      rw [hg.1, hg.2]; exact h
    | lfu s =>
      have hg := lfu_get_size s k
      refine ⟨?_, hg.2⟩
      show (LFUCache.get s k).1.cache.length ≤ (LFUCache.get s k).1.capacity
      rw [hg.1, hg.2]; exact h
    | mru s =>
      have hg := mru_get_size s k
      refine ⟨?_, hg.2⟩
      show (MRUCache.get s k).1.cache.length ≤ (MRUCache.get s k).1.capacity
      rw [hg.1, hg.2]; exact h
    | fifo s => exact ⟨h, rfl⟩
    | tinylfu s =>
      have hg := tinylfu_get_size s k
      refine ⟨?_, hg.2⟩
      show (TinyLFUCache.get s k).1.cache.length ≤ (TinyLFUCache.get s k).1.capacity
      rw [hg.1, hg.2]; exact h
    | slru s =>
      have hg := slru_get_size s k h.1 h.2
      exact ⟨⟨hg.2.2.1 ▸ hg.1, hg.2.2.2 ▸ hg.2.1⟩, by
        show (SLRUCache.get s k).1.probation_capacity + (SLRUCache.get s k).1.protected_capacity =
          s.probation_capacity + s.protected_capacity
        rw [hg.2.2.1, hg.2.2.2]⟩
    | clock s =>
      have hg := clock_get_size s k
      refine ⟨?_, hg.2⟩
      show (ClockCache.get s k).1.cache.length ≤ (ClockCache.get s k).1.capacity
      rw [hg.1, hg.2]; exact h
  | opPut k v =>
    cases ps with
    | lru s =>
      have hg := lru_put_size s k v h
      refine ⟨?_, hg.2⟩
      show (LRUCache.put s k v).cache.length ≤ (LRUCache.put s k v).capacity
      rw [hg.2]; exact hg.1
    | lfu s =>
      have hg := lfu_put_size s k v h
      refine ⟨?_, hg.2⟩
      show (LFUCache.put s k v).1.cache.length ≤ (LFUCache.put s k v).1.capacity
      rw [hg.2]; exact hg.1
    | mru s =>
      have hg := mru_put_size s k v h
      refine ⟨?_, hg.2⟩
      show (MRUCache.put s k v).cache.length ≤ (MRUCache.put s k v).capacity
      rw [hg.2]; exact hg.1
    | fifo s =>
      have hg := fifo_put_size s k v h
      refine ⟨?_, hg.2⟩
      show (FIFOCache.put s k v).1.cache.length ≤ (FIFOCache.put s k v).1.capacity
      rw [hg.2]; exact hg.1
    | tinylfu s =>
      have hg := tinylfu_put_size s k v h
      refine ⟨?_, hg.2⟩
      show (TinyLFUCache.put s k v).1.cache.length ≤ (TinyLFUCache.put s k v).1.capacity
      rw [hg.2]; exact hg.1
    | slru s =>
      have hg := slru_put_size s k v h.1 h.2
      exact ⟨⟨hg.2.2.1 ▸ hg.1, hg.2.2.2 ▸ hg.2.1⟩, by
        show (SLRUCache.put s k v).1.probation_capacity + (SLRUCache.put s k v).1.protected_capacity =
          s.probation_capacity + s.protected_capacity
        rw [hg.2.2.1, hg.2.2.2]⟩
    | clock s =>
      have hg := clock_put_size s k v h
      refine ⟨?_, hg.2⟩
      show (ClockCache.put s k v).1.cache.length ≤ (ClockCache.put s k v).1.capacity
      rw [hg.2]; exact hg.1

theorem goodSize_size_le (ps : PolicyState) (h : ps.goodSize) : ps.sizeOf ≤ ps.capOf := by
  cases ps with
  | slru s => exact Nat.add_le_add h.1 h.2
  | lru s => exact h
  | lfu s => exact h
  | mru s => exact h
  | fifo s => exact h
  | tinylfu s => exact h
  | clock s => exact h

theorem runOps_good : ∀ (ops : List Op) (ps : PolicyState), ps.goodSize →
    (runOps ps ops).goodSize ∧ (runOps ps ops).capOf = ps.capOf := by
  intro ops
  induction ops with
  | nil => intro ps h; exact ⟨h, rfl⟩
  | cons op rest ih =>
    intro ps h
    unfold runOps
    have hstep := polStep_good ps op h
    rcases hpol : polStep ps op with ⟨ps', r⟩
    rw [hpol] at hstep
    cases r with
    | ok u =>
      have hrec := ih ps' hstep.1
      exact ⟨hrec.1, hrec.2.trans hstep.2⟩
    | error e => exact hstep

theorem createCache_good (policy : String) (c : Int) (hc : 0 < c) (ps : PolicyState)
    (hinit : Cache.createCache policy (some c) = .ok ps) :
    ps.goodSize ∧ ps.capOf = c.toNat := by
  have hle : ¬ c ≤ 0 := by omega
  unfold Cache.createCache at hinit
  split at hinit
  · simp only [LRUCache.init, if_neg hle, Except.map] at hinit
    cases hinit
    exact ⟨Nat.zero_le _, rfl⟩
  · split at hinit
    · simp only [LFUCache.init, if_neg hle, Except.map] at hinit
      cases hinit
      exact ⟨Nat.zero_le _, rfl⟩
    · split at hinit
      · simp only [MRUCache.init, if_neg hle, Except.map] at hinit
        cases hinit
        exact ⟨Nat.zero_le _, rfl⟩
      · split at hinit
        · simp only [FIFOCache.init, if_neg hle, Except.map] at hinit
          cases hinit
          exact ⟨Nat.zero_le _, rfl⟩
        · split at hinit
          · simp only [TinyLFUCache.init, if_neg hle, Except.map] at hinit
            cases hinit
            exact ⟨Nat.zero_le _, rfl⟩
          · split at hinit
            · simp only [SLRUCache.init, if_neg hle,
                if_neg (show ¬¬(0 < Rat.divInt 1 2 ∧ Rat.divInt 1 2 < 1) by decide),
                Except.map] at hinit
              cases hinit
              refine ⟨⟨Nat.zero_le _, Nat.zero_le _⟩, ?_⟩
              show c.toNat - (c * (Rat.divInt 1 2).num).toNat / (Rat.divInt 1 2).den +
                  (c * (Rat.divInt 1 2).num).toNat / (Rat.divInt 1 2).den = c.toNat
              have hnum : (Rat.divInt 1 2).num = 1 := by decide
              have hden : (Rat.divInt 1 2).den = 2 := by decide
              rw [hnum, hden, mul_one]
              have := Nat.div_le_self c.toNat 2
              omega
            · split at hinit
              · simp only [ClockCache.init, if_neg hle, Except.map] at hinit
                cases hinit
                exact ⟨Nat.zero_le _, rfl⟩
              · exact Except.noConfusion hinit

/-! ## Claim C2 -/

/-- Claim C2: for every policy kind and every capacity c > 0, an instance
built by the registry factory satisfies, after any finite sequence of
get/put calls (a call that raises aborts the sequence, keeping the
mutations it made before raising), `sizeOf ≤ c`: the number of resident
entries — for SLRU the combined probation + protected count — never
exceeds the construction capacity, so in particular it is at most c after
each put that returns. -/
theorem capacity_invariant_all_policies (policy : String) (c : Int) (hc : 0 < c)
    (ps : PolicyState) (hinit : Cache.createCache policy (some c) = .ok ps)
    (ops : List Op) :
    ((runOps ps ops).sizeOf : Int) ≤ c := by
  have h0 := createCache_good policy c hc ps hinit
  have h1 := runOps_good ops ps h0.1
  have h2 := goodSize_size_le _ h1.1
  rw [h1.2, h0.2] at h2
  omega

/-- Witness for C2: an LRU instance of capacity 2 holds at most 2 entries
after three puts and a get. -/
theorem capacity_invariant_witness :
    ((runOps (PolicyState.lru { cache := [], capacity := 2 })
        [Op.opPut "a" 1, Op.opPut "b" 2, Op.opPut "c" 3, Op.opGet "a"]).sizeOf : Int) ≤ 2 :=
  capacity_invariant_all_policies "LRU" 2 (by decide)
    (PolicyState.lru { cache := [], capacity := 2 }) (by decide)
    [Op.opPut "a" 1, Op.opPut "b" 2, Op.opPut "c" 3, Op.opGet "a"]

/-! ## Error taxonomy lemmas (claim C5 groundwork) -/

theorem fifo_put_err (s : FIFOState) (k : String) (v : Int) (e : Err)
    (h : (FIFOCache.put s k v).2 = .error e) : e = .indexError := by
  unfold FIFOCache.put at h
  split at h
  · exact Except.noConfusion h
  · split at h
    · split at h
      · injection h with h1
        exact h1.symm
      · exact Except.noConfusion h
    · exact Except.noConfusion h

theorem tinylfu_evict_err (s : TinyLFUState) (e : Err)
    (h : (TinyLFUCache.evict s).2 = .error e) : e = .valueError ∨ e = .keyError := by
  unfold TinyLFUCache.evict at h
  split at h
  · injection h with h1
    exact .inl h1.symm
  · dsimp only at h
    split at h
    · injection h with h1
      exact .inr h1.symm
    · exact Except.noConfusion h

theorem tinylfu_put_err (s : TinyLFUState) (k : String) (v : Int) (e : Err)
    (h : (TinyLFUCache.put s k v).2 = .error e) : e = .valueError ∨ e = .keyError := by
  unfold TinyLFUCache.put at h
  split at h
  · exact Except.noConfusion h
  · split at h
    · split at h
      · next s1 e2 heq =>
        injection h with h1
        subst h1
        exact tinylfu_evict_err s e2 (by rw [heq])
      · exact Except.noConfusion h
    · exact Except.noConfusion h

theorem lfu_update_err (s : LFUState) (k : String) (v : Int) (f : Nat) (e : Err)
    (h : (LFUCache.update s k v f).2 = .error e) : e = .keyError := by
  unfold LFUCache.update at h
  dsimp only at h
  split at h
  · split at h
    · exact Except.noConfusion h
    · exact Except.noConfusion h
  · injection h with h1
    exact h1.symm

theorem lfu_evict_err (s : LFUState) (e : Err)
    (h : (LFUCache.evict s).2 = .error e) : e = .keyError := by
  unfold LFUCache.evict at h
  split at h
  · injection h with h1
    exact h1.symm
  · dsimp only at h
    split at h
    · exact Except.noConfusion h
    · injection h with h1
      exact h1.symm

theorem lfu_get_err (s : LFUState) (k : String) (e : Err)
    (h : (LFUCache.get s k).2 = .error e) : e = .keyError := by
  unfold LFUCache.get at h
  split at h
  · exact Except.noConfusion h
  · next v f heq =>
    split at h
    · next s1 e2 heq2 =>
      injection h with h1
      subst h1
      exact lfu_update_err s k v f e2 (by rw [heq2])
    · exact Except.noConfusion h

theorem lfu_put_err (s : LFUState) (k : String) (v : Int) (e : Err)
    (h : (LFUCache.put s k v).2 = .error e) : e = .valueError ∨ e = .keyError := by
  unfold LFUCache.put at h
  split at h
  · injection h with h1
    exact .inl h1.symm
  · split at h
    · next w f heq =>
      exact .inr (lfu_update_err s k v f e h)
    · split at h
      · split at h
        · next s1 e2 heq2 =>
          injection h with h1
          subst h1
          exact .inr (lfu_evict_err s e2 (by rw [heq2]))
        · exact Except.noConfusion h
      · exact Except.noConfusion h

theorem slru_promote_err (s : SLRUState) (k : String) (v : Int) (e : Err)
    (h : (SLRUCache.promote s k v).2 = .error e) : e = .indexError := by
  unfold SLRUCache.promote at h
  split at h
  · split at h
    · injection h with h1
      exact h1.symm
    · exact Except.noConfusion h
  · exact Except.noConfusion h

theorem slru_get_err (s : SLRUState) (k : String) (e : Err)
    (h : (SLRUCache.get s k).2 = .error e) : e = .indexError := by
  unfold SLRUCache.get at h
  split at h
  · exact Except.noConfusion h
  · split at h
    · next v heq =>
      split at h
      · next s1 e2 heq2 =>
        injection h with h1
        subst h1
        exact slru_promote_err _ k v e2 (by rw [heq2])
      · exact Except.noConfusion h
    · exact Except.noConfusion h

theorem slru_put_err (s : SLRUState) (k : String) (v : Int) (e : Err)
    (h : (SLRUCache.put s k v).2 = .error e) : e = .indexError := by
  unfold SLRUCache.put at h
  split at h
  · exact Except.noConfusion h
  · split at h
    · exact slru_promote_err _ k v e h
    · split at h
      · split at h
        · injection h with h1
          exact h1.symm
        · exact Except.noConfusion h
      · exact Except.noConfusion h

theorem clock_sweep_err (fuel : Nat) :
    ∀ (s : ClockState) (k : String) (v : Int) (e : Err),
    (ClockCache.sweep fuel s k v).2 = .error e →
    e = .fuelExhausted ∨ e = .indexError ∨ e = .keyError := by
  induction fuel with
  | zero =>
    intro s k v e h
    injection h with h1
    exact .inl h1.symm
  | succ n ih =>
    intro s k v e h
    unfold ClockCache.sweep at h
    split at h
    · injection h with h1
      exact .inr (.inl h1.symm)
    · split at h
      · injection h with h1
        exact .inr (.inr h1.symm)
      · split at h
        · split at h
          · exact Except.noConfusion h
          · injection h with h1
            exact .inr (.inr h1.symm)
        · exact ih _ k v e h

theorem clock_put_err (s : ClockState) (k : String) (v : Int) (e : Err)
    (h : (ClockCache.put s k v).2 = .error e) :
    e = .fuelExhausted ∨ e = .indexError ∨ e = .keyError := by
  unfold ClockCache.put at h
  split at h
  · exact Except.noConfusion h
  · split at h
    · exact Except.noConfusion h
    · exact clock_sweep_err (2 * s.capacity) s k v e h

theorem polGet_err_not_routerKind (ps : PolicyState) (k : String) (e : Err)
    (h : (ps.polGet k).2 = .error e) : e.routerKind = false := by
  cases ps with
  | lru s => exact Except.noConfusion h
  | mru s => exact Except.noConfusion h
  | fifo s => exact Except.noConfusion h
  | tinylfu s => exact Except.noConfusion h
  | clock s => exact Except.noConfusion h
  | lfu s =>
    have := lfu_get_err s k e h
    subst this
    rfl
  | slru s =>
    have := slru_get_err s k e h
    subst this
    rfl

theorem polPut_err_not_routerKind (ps : PolicyState) (k : String) (v : Int) (e : Err)
    (h : (ps.polPut k v).2 = .error e) : e.routerKind = false := by
  cases ps with
  | lru s => exact Except.noConfusion h
  | mru s => exact Except.noConfusion h
  | fifo s =>
    have := fifo_put_err s k v e h
    subst this
    rfl
  | tinylfu s =>
    rcases tinylfu_put_err s k v e h with h1 | h1 <;> subst h1 <;> rfl
  | clock s =>
    rcases clock_put_err s k v e h with h1 | h1 | h1 <;> subst h1 <;> rfl
  | lfu s =>
    rcases lfu_put_err s k v e h with h1 | h1 <;> subst h1 <;> rfl
  | slru s =>
    have := slru_put_err s k v e h
    subst this
    rfl

theorem except_map_err {α β : Type} (f : α → β) (x : Except Err α) (e : Err)
    (h : x.map f = .error e) : x = .error e := by
  cases x with
  | ok a => exact Except.noConfusion h
  | error e2 =>
    injection h with h1
    rw [h1]

theorem lru_init_err (cap : Option Int) (e : Err) (h : LRUCache.init cap = .error e) :
    e = .typeError ∨ e = .valueError := by
  unfold LRUCache.init at h
  cases cap with
  | none =>
    injection h with h1
    exact .inl h1.symm
  | some c =>
    dsimp only at h
    split at h
    · injection h with h1
      exact .inr h1.symm
    · exact Except.noConfusion h

theorem lfu_init_err (cap : Option Int) (e : Err) (h : LFUCache.init cap = .error e) :
    e = .typeError ∨ e = .valueError := by
  unfold LFUCache.init at h
  cases cap with
  | none =>
    injection h with h1
    exact .inl h1.symm
  | some c =>
    dsimp only at h
    split at h
    · injection h with h1
      exact .inr h1.symm
    · exact Except.noConfusion h

theorem mru_init_err (cap : Option Int) (e : Err) (h : MRUCache.init cap = .error e) :
    e = .typeError ∨ e = .valueError := by
  unfold MRUCache.init at h
  cases cap with
  | none =>
    injection h with h1
    exact .inl h1.symm
  | some c =>
    dsimp only at h
    split at h
    · injection h with h1
      exact .inr h1.symm
    · exact Except.noConfusion h

theorem fifo_init_err (cap : Option Int) (e : Err) (h : FIFOCache.init cap = .error e) :
    e = .typeError ∨ e = .valueError := by
  unfold FIFOCache.init at h
  cases cap with
  | none =>
    injection h with h1
    exact .inl h1.symm
  | some c =>
    dsimp only at h
    split at h
    · injection h with h1
      exact .inr h1.symm
    · exact Except.noConfusion h

theorem tinylfu_init_err (cap : Option Int) (e : Err) (h : TinyLFUCache.init cap = .error e) :
    e = .typeError ∨ e = .valueError := by
  unfold TinyLFUCache.init at h
  cases cap with
  | none =>
    injection h with h1
    exact .inl h1.symm
  | some c =>
    dsimp only at h
    split at h
    · injection h with h1
      exact .inr h1.symm
    · exact Except.noConfusion h

theorem slru_init_err (cap : Option Int) (ratio : ℚ) (e : Err)
    (h : SLRUCache.init cap ratio = .error e) :
    e = .typeError ∨ e = .valueError := by
  unfold SLRUCache.init at h
  cases cap with
  | none =>
    injection h with h1
    exact .inl h1.symm
  | some c =>
    dsimp only at h
    split at h
    · injection h with h1
      exact .inr h1.symm
    · split at h
      · injection h with h1
        exact .inr h1.symm
      · exact Except.noConfusion h

theorem clock_init_err (cap : Option Int) (e : Err) (h : ClockCache.init cap = .error e) :
    e = .typeError ∨ e = .valueError := by
  unfold ClockCache.init at h
  cases cap with
  | none =>
    injection h with h1
    exact .inl h1.symm
  | some c =>
    dsimp only at h
    split at h
    · injection h with h1
      exact .inr h1.symm
    · exact Except.noConfusion h

theorem createCache_err_not_routerKind (policy : String) (cap : Option Int) (e : Err)
    (hpol : policy ∈ Cache.POLICY_NAMES)
    (h : Cache.createCache policy cap = .error e) : e.routerKind = false := by
  have generic : ∀ (e2 : Err), (e2 = .typeError ∨ e2 = .valueError) → e2.routerKind = false := by
    intro e2 h2
    rcases h2 with h2 | h2 <;> subst h2 <;> rfl
  unfold Cache.createCache at h
  split at h
  · exact generic e (lru_init_err cap e (except_map_err _ _ e h))
  · split at h
    · exact generic e (lfu_init_err cap e (except_map_err _ _ e h))
    · split at h
      · exact generic e (mru_init_err cap e (except_map_err _ _ e h))
      · split at h
        · exact generic e (fifo_init_err cap e (except_map_err _ _ e h))
        · split at h
          · exact generic e (tinylfu_init_err cap e (except_map_err _ _ e h))
          · split at h
            · exact generic e (slru_init_err cap (Rat.divInt 1 2) e (except_map_err _ _ e h))
            · split at h
              · exact generic e (clock_init_err cap e (except_map_err _ _ e h))
              · next h1 h2 h3 h4 h5 h6 h7 =>
                exfalso
                simp only [Cache.POLICY_NAMES, List.mem_cons, List.not_mem_nil] at hpol
                rcases hpol with hp | hp | hp | hp | hp | hp | hp | hp
                · exact h1 hp
                · exact h2 hp
                · exact h3 hp
                · exact h4 hp
                · exact h5 hp
                · exact h6 hp
                · exact h7 hp
                · exact hp

/-! ## Claim C5 -/

/-- Claim C5: a router call that raises one of the spec's taxonomy errors
(InvalidArgument, InvalidConfiguration, UnknownContext) leaves the whole
observable router state — entry stores, configuration records, metrics —
exactly as it was: all three kinds are raised by validation that runs
before any mutation, and the errors raised after a mutation (the TypeError
of an unset capacity, strategy-level KeyError/IndexError) are never of
these kinds. -/
theorem failing_router_ops_preserve_state (r : Router) (op : RouterOp) (r' : Router) (e : Err)
    (h : stepRouter r op = (r', some e)) (hkind : e.routerKind = true) : r' = r := by
  cases op with
  | setPolicy ctx pol cap =>
    simp only [stepRouter] at h
    unfold Cache.set_context_policy at h
    split at h
    · injection h with h1 h2
      exact h1.symm
    · split at h
      · injection h with h1 h2
        exact h1.symm
      · split at h
        · injection h with h1 h2
          exact h1.symm
        · next hc1 hc2 hc3 =>
          dsimp only at h
          split at h
          · injection h with h1 h2
            exact Option.noConfusion h2
          · next e2 heq =>
            injection h with h1 h2
            injection h2 with h3
            subst h3
            have hmem : pol ∈ Cache.POLICY_NAMES := not_not.mp hc2
            have hne := createCache_err_not_routerKind pol cap e2 hmem (by rw [heq])
            rw [hne] at hkind
            exact Bool.noConfusion hkind
  | rGet k ctx =>
    simp only [stepRouter] at h
    unfold Cache.routerGet at h
    split at h
    · injection h with h1 h2
      exact h1.symm
    · split at h
      · injection h with h1 h2
        exact h1.symm
      · next ps hps =>
        split at h
        · next ps' e2 heq =>
          injection h with h1 h2
          injection h2 with h3
          subst h3
          have hne := polGet_err_not_routerKind ps k e2 (by rw [heq])
          rw [hne] at hkind
          exact Bool.noConfusion hkind
        · next ps' v heq =>
          split at h
          · injection h with h1 h2
            exact Option.noConfusion h2
          · injection h with h1 h2
            exact Option.noConfusion h2
  | rPut k v ctx =>
    simp only [stepRouter] at h
    unfold Cache.routerPut at h
    split at h
    · injection h with h1 h2
      exact h1.symm
    · split at h
      · injection h with h1 h2
        exact h1.symm
      · next ps hps =>
        split at h
        · next ps' e2 heq =>
          injection h with h1 h2
          injection h2 with h3
          subst h3
          have hne := polPut_err_not_routerKind ps k v e2 (by rw [heq])
          rw [hne] at hkind
          exact Bool.noConfusion hkind
        · injection h with h1 h2
          exact Option.noConfusion h2
  | rClear octx =>
    simp only [stepRouter] at h
    unfold Cache.clear_cache at h
    split at h
    · split at h
      · split at h
        · injection h with h1 h2
          exact h1.symm
        · injection h with h1 h2
          exact h1.symm
      · split at h
        · injection h with h1 h2
          exact h1.symm
        · injection h with h1 h2
          exact h1.symm
    · split at h
      · injection h with h1 h2
        exact h1.symm
      · injection h with h1 h2
        exact h1.symm

/-- Witness for C5: `get` with an empty key raises InvalidArgument and the
router is unchanged. -/
theorem failing_router_ops_preserve_state_witness :
    (stepRouter (Cache.mkRouter "LRU" 100) (RouterOp.rGet "" "ctx")).1 = Cache.mkRouter "LRU" 100 :=
  failing_router_ops_preserve_state (Cache.mkRouter "LRU" 100) (RouterOp.rGet "" "ctx")
    (stepRouter (Cache.mkRouter "LRU" 100) (RouterOp.rGet "" "ctx")).1 Err.invalidArgument
    (by decide) (by decide)

theorem isSome_false_eq_none {α : Type} {o : Option α} (h : o.isSome = false) : o = none := by
  cases o with
  | none => rfl
  | some v => exact Bool.noConfusion h

theorem polGet_absent (ps : PolicyState) (k : String) (h : ps.resident k = false) :
    ps.polGet k = (ps, .ok (-1)) := by
  cases ps with
  | lru s =>
    have hnone := isSome_false_eq_none h
    unfold PolicyState.polGet LRUCache.get
    dsimp only
    rw [hnone]
  | mru s =>
    have hnone := isSome_false_eq_none h
    unfold PolicyState.polGet MRUCache.get
    dsimp only
    rw [hnone]
  | fifo s =>
    have hnone := isSome_false_eq_none h
    unfold PolicyState.polGet FIFOCache.get
    dsimp only
    rw [hnone]
    rfl
  | tinylfu s =>
    have hnone := isSome_false_eq_none h
    unfold PolicyState.polGet TinyLFUCache.get
    dsimp only
    rw [hnone]
  | clock s =>
    have hnone := isSome_false_eq_none h
    unfold PolicyState.polGet ClockCache.get
    dsimp only
    rw [hnone]
  | lfu s =>
    have hnone := isSome_false_eq_none h
    unfold PolicyState.polGet LFUCache.get
    dsimp only
    rw [hnone]
  | slru s =>
    simp only [PolicyState.resident, Bool.or_eq_false_iff] at h
    have h1 := isSome_false_eq_none h.1
    have h2 := isSome_false_eq_none h.2
    unfold PolicyState.polGet SLRUCache.get
    dsimp only
    rw [h1, h2]

/-! ## Claim C6: amended -/

/-- Claim C6 as amended: the `-1` sentinel is NOT distinguishable from a
stored value — the router records a hit exactly when the value the policy
returned differs from the literal `-1`, so a resident key whose stored
value is `-1` records a miss (see the counterexample above); a `get` on an
absent key returns `-1`, records a miss and leaves the rest of the router
unchanged. -/
theorem router_get_hit_iff_not_sentinel (r : Router) (k ctx : String) :
    (∀ r' v, Cache.routerGet r k ctx = (r', .ok v) →
      (v ≠ -1 → r'.hits = r.hits + 1 ∧ r'.misses = r.misses) ∧
      (v = -1 → r'.misses = r.misses + 1 ∧ r'.hits = r.hits)) ∧
    (∀ ps, k ≠ "" → lookupA ctx r.context_cache = some ps → ps.resident k = false →
      Cache.routerGet r k ctx = ({ r with misses := r.misses + 1 }, .ok (-1))) := by
  constructor
  · intro r' v h
    unfold Cache.routerGet at h
    split at h
    · injection h with h1 h2
      exact Except.noConfusion h2
    · split at h
      · injection h with h1 h2
        exact Except.noConfusion h2
      · next ps hps =>
        split at h
        · next ps' e2 heq =>
          injection h with h1 h2
          exact Except.noConfusion h2
        · next ps' v0 heq =>
          split at h
          · next hv =>
            injection h with h1 h2
            injection h2 with h3
            subst h3
            refine ⟨fun _ => ?_, fun hv1 => absurd hv1 hv⟩
            rw [← h1]
            exact ⟨rfl, rfl⟩
          · next hv =>
            have hv1 : v0 = -1 := not_not.mp hv
            injection h with h1 h2
            injection h2 with h3
            subst h3
            refine ⟨fun hne => absurd hv1 hne, fun _ => ?_⟩
            rw [← h1]
            exact ⟨rfl, rfl⟩
  · intro ps hk hctx hres
    unfold Cache.routerGet
    rw [if_neg hk, hctx]
    dsimp only
    rw [polGet_absent ps k hres]
    dsimp only
    rw [if_neg (show ¬(-1 : Int) ≠ -1 from not_not.mpr rfl)]
    rw [setA_eq_self_of_lookupA hctx]

/-- Witness for the amended C6: a get on the absent key "x" returns -1 and
bumps only the miss counter. -/
theorem router_get_hit_iff_not_sentinel_witness :
    Cache.routerGet
      { default_policy := "LRU", default_capacity := 100,
        context_cache := [("ctx", PolicyState.lru { cache := [("k", 7)], capacity := 2 })],
        context_policies := [("ctx", ("LRU", 2))], hits := 0, misses := 1 }
      "x" "ctx" =
    ({ default_policy := "LRU", default_capacity := 100,
       context_cache := [("ctx", PolicyState.lru { cache := [("k", 7)], capacity := 2 })],
       context_policies := [("ctx", ("LRU", 2))], hits := 0, misses := 2 }, .ok (-1)) :=
  (router_get_hit_iff_not_sentinel
    { default_policy := "LRU", default_capacity := 100,
      context_cache := [("ctx", PolicyState.lru { cache := [("k", 7)], capacity := 2 })],
      context_policies := [("ctx", ("LRU", 2))], hits := 0, misses := 1 }
    "x" "ctx").2
    (PolicyState.lru { cache := [("k", 7)], capacity := 2 })
    (by decide) (by decide) (by decide)

/-- Evaluation of `LFUCache._evict` when the `min_freq` bucket is `h :: t`
and `h` is resident: the bucket head is removed from both structures. -/
theorem lfu_evict_eval (s : LFUState) (h : String) (t : List String) (w : Int × Nat)
    (hbucket : LFUCache.bucketAt s s.min_freq = h :: t)
    (hres : lookupA h s.cache = some w) :
    LFUCache.evict s =
      ({ s with freq := setA s.min_freq t s.freq, cache := eraseA h s.cache }, .ok ()) := by
  unfold LFUCache.evict
  rw [hbucket]
  dsimp only
  rw [if_pos (show (lookupA h s.cache).isSome = true from by rw [hres]; rfl)]

/-! ## Claim C7 -/

/-- Claim C7: an LFU cache at capacity handling `put` on a new key evicts
exactly the head of the `min_freq` bucket — the key least recently
inserted into the least-frequent group (buckets are ordered sets kept in
insertion order) — leaving every other resident key untouched, then
inserts the new key at frequency 1 and sets `min_freq = 1`.  Hypotheses:
the bucket is `h :: t` with `h` resident and cache keys distinct, which
hold in every state the cache reaches (the `min_freq` bucket is re-pointed
by `_update`/`put` exactly when it empties). -/
theorem lfu_evicts_head_of_min_freq_bucket (s : LFUState) (k : String) (v : Int)
    (h : String) (t : List String) (w : Int × Nat)
    (hcap0 : ¬ s.capacity = 0)
    (hfull : s.capacity ≤ s.cache.length)
    (hnew : lookupA k s.cache = none)
    (hbucket : LFUCache.bucketAt s s.min_freq = h :: t)
    (hres : lookupA h s.cache = some w)
    (hnd : (s.cache.map Prod.fst).Nodup) :
    (LFUCache.put s k v).2 = .ok () ∧
    (LFUCache.put s k v).1.cache = setA k (v, 1) (eraseA h s.cache) ∧
    lookupA h (LFUCache.put s k v).1.cache = none ∧
    lookupA k (LFUCache.put s k v).1.cache = some (v, 1) ∧
    (LFUCache.put s k v).1.min_freq = 1 ∧
    (∀ k', k' ≠ h → k' ≠ k → lookupA k' (LFUCache.put s k v).1.cache = lookupA k' s.cache) := by
  have hhk : h ≠ k := by
    intro heq
    rw [heq, hnew] at hres
    exact Option.noConfusion hres
  have hput : LFUCache.put s k v =
      (LFUCache.insertNew
        { s with freq := setA s.min_freq t s.freq, cache := eraseA h s.cache } k v, .ok ()) := by
    unfold LFUCache.put
    rw [if_neg hcap0, hnew]
    dsimp only
    rw [if_pos hfull, lfu_evict_eval s h t w hbucket hres]
  rw [hput]
  have hcache : (LFUCache.insertNew
      { s with freq := setA s.min_freq t s.freq, cache := eraseA h s.cache } k v).cache =
      setA k (v, 1) (eraseA h s.cache) := rfl
  refine ⟨rfl, hcache, ?_, ?_, rfl, ?_⟩
  · rw [hcache, lookupA_setA_ne _ _ hhk, lookupA_eraseA_self_of_nodup hnd]
  · rw [hcache, lookupA_setA_self]
  · intro k' hk'h hk'k
    rw [hcache, lookupA_setA_ne _ _ hk'k, lookupA_eraseA_ne _ hk'h]

/-- Witness for C7: a full capacity-1 LFU evicts its single key "a" (the
head of the frequency-1 bucket) to admit "b". -/
theorem lfu_evicts_head_witness :
    (let s : LFUState :=
      { cache := [("a", (5, 1))], freq := [(1, ["a"])], min_freq := 1, capacity := 1 };
     (LFUCache.put s "b" 7).2 = .ok () ∧
     (LFUCache.put s "b" 7).1.cache = setA "b" (7, 1) (eraseA "a" s.cache) ∧
     lookupA "a" (LFUCache.put s "b" 7).1.cache = none ∧
     lookupA "b" (LFUCache.put s "b" 7).1.cache = some (7, 1) ∧
     (LFUCache.put s "b" 7).1.min_freq = 1 ∧
     (∀ k', k' ≠ "a" → k' ≠ "b" →
       lookupA k' (LFUCache.put s "b" 7).1.cache = lookupA k' s.cache)) :=
  lfu_evicts_head_of_min_freq_bucket
    { cache := [("a", (5, 1))], freq := [(1, ["a"])], min_freq := 1, capacity := 1 }
    "b" 7 "a" [] (5, 1) (by decide) (by decide) (by decide) (by decide) (by decide) (by decide)

theorem bitsOnes_le_length (bits : List (String × Nat)) (keys : List String) :
    bitsOnes bits keys ≤ keys.length :=
  List.length_filter_le _ keys

theorem bitsOnes_setA_zero (keys : List String) (bits : List (String × Nat)) (current : String)
    (hmem : current ∈ keys) (hnd : keys.Nodup)
    (hb : (lookupA current bits).getD 0 ≠ 0) :
    bitsOnes (setA current 0 bits) keys + 1 = bitsOnes bits keys := by
  induction keys with
  | nil => simp at hmem
  | cons a l ih =>
    simp only [List.nodup_cons] at hnd
    unfold bitsOnes
    rcases List.mem_cons.mp hmem with hcur | hcur
    · subst hcur
      have hpred_new : ((lookupA current (setA current 0 bits)).getD 0 != 0) = false := by
        rw [lookupA_setA_self]
        rfl
      have hpred_old : ((lookupA current bits).getD 0 != 0) = true := by
        simpa using hb
      rw [List.filter_cons, List.filter_cons, hpred_new, hpred_old]
      have hcongr : ∀ x ∈ l, ((lookupA x (setA current 0 bits)).getD 0 != 0) =
          ((lookupA x bits).getD 0 != 0) := by
        intro x hx
        have hne : x ≠ current := fun hxc => hnd.1 (hxc ▸ hx)
        rw [lookupA_setA_ne _ _ hne]
      rw [List.filter_congr hcongr]
      simp
    · have hane : a ≠ current := fun hac => hnd.1 (hac ▸ hcur)
      have hih := ih hcur hnd.2
      unfold bitsOnes at hih
      rw [List.filter_cons, List.filter_cons, lookupA_setA_ne _ _ hane]
      split
      · simp only [List.length_cons]
        omega
      · omega

/-- The clock sweep finds a victim (returns successfully) whenever the fuel
exceeds the number of set reference bits: each unsuccessful examination
clears the current slot's bit, so the measure strictly decreases. -/
theorem clock_sweep_finds_victim :
    ∀ (fuel : Nat) (s : ClockState) (k : String) (v : Int),
    s.keys.length = s.capacity →
    s.pointer < s.capacity →
    s.keys.Nodup →
    (∀ x ∈ s.keys, (lookupA x s.reference_bits).isSome) →
    (∀ x ∈ s.keys, (lookupA x s.cache).isSome) →
    bitsOnes s.reference_bits s.keys < fuel →
    (ClockCache.sweep fuel s k v).2 = .ok () := by
  intro fuel
  induction fuel with
  | zero =>
    intro s k v _ _ _ _ _ hones
    omega
  | succ n ih =>
    intro s k v hlen hptr hnd hbits hcache hones
    unfold ClockCache.sweep
    cases hcur : s.keys.get? s.pointer with
    | none =>
      rw [List.get?_eq_none] at hcur
      omega
    | some current =>
      dsimp only
      have hmem : current ∈ s.keys := List.get?_mem hcur
      cases hb : lookupA current s.reference_bits with
      | none =>
        have hsb := hbits current hmem
        rw [hb] at hsb
        exact Bool.noConfusion hsb
      | some b =>
        dsimp only
        by_cases hb0 : b = 0
        · rw [if_pos hb0, if_pos (hcache current hmem)]
        · rw [if_neg hb0]
          apply ih
          · exact hlen
          · exact Nat.mod_lt _ (by omega)
          · exact hnd
          · intro x hx
            by_cases hxc : x = current
            · subst hxc
              rw [lookupA_setA_self]
              rfl
            · rw [lookupA_setA_ne _ _ hxc]
              exact hbits x hx
          · exact hcache
          · have hdec := bitsOnes_setA_zero s.keys s.reference_bits current hmem hnd
              (by rw [hb]; simpa using hb0)
            show bitsOnes (setA current 0 s.reference_bits) s.keys < n
            omega

/-! ## Claim C8 -/

/-- Claim C8: at full capacity, `ClockCache.put` on a new key terminates —
the sweep (embedded with fuel, one examined slot per unit) finds a victim
and the call returns successfully — and a sweep with at most `2 * capacity`
examinations suffices (indeed `bitsOnes + 1 ≤ capacity + 1` do): each
unsuccessful examination clears a set reference bit, of which there are at
most `capacity`.  The hypotheses are the slot-array well-formedness every
reachable full state has: `keys` holds `capacity` distinct resident keys,
each with a reference bit, and the hand points inside the array. -/
theorem clock_put_at_capacity_terminates (s : ClockState) (k : String) (v : Int)
    (hfull : ¬ s.cache.length < s.capacity)
    (hnew : lookupA k s.cache = none)
    (hlen : s.keys.length = s.capacity)
    (hptr : s.pointer < s.capacity)
    (hnd : s.keys.Nodup)
    (hbits : ∀ x ∈ s.keys, (lookupA x s.reference_bits).isSome)
    (hcache : ∀ x ∈ s.keys, (lookupA x s.cache).isSome) :
    (ClockCache.put s k v).2 = .ok () ∧
    ∃ n, n ≤ 2 * s.capacity ∧ (ClockCache.sweep n s k v).2 = .ok () := by
  have hones_le : bitsOnes s.reference_bits s.keys ≤ s.capacity :=
    hlen ▸ bitsOnes_le_length s.reference_bits s.keys
  constructor
  · unfold ClockCache.put
    rw [if_neg (show ¬(lookupA k s.cache).isSome = true from by rw [hnew]; exact Bool.noConfusion),
        if_neg hfull]
    apply clock_sweep_finds_victim (2 * s.capacity) s k v hlen hptr hnd hbits hcache
    omega
  · refine ⟨bitsOnes s.reference_bits s.keys + 1, by omega, ?_⟩
    apply clock_sweep_finds_victim _ s k v hlen hptr hnd hbits hcache
    omega

/-- Witness for C8: a full capacity-1 clock with the bit set examines two
slots (clear, wrap, evict) and terminates within the 2 x capacity bound. -/
theorem clock_put_terminates_witness :
    (ClockCache.put
      { cache := [("a", 5)], reference_bits := [("a", 1)], pointer := 0,
        capacity := 1, keys := ["a"] } "b" 7).2 = .ok () ∧
    ∃ n, n ≤ 2 * 1 ∧
      (ClockCache.sweep n
        { cache := [("a", 5)], reference_bits := [("a", 1)], pointer := 0,
          capacity := 1, keys := ["a"] } "b" 7).2 = .ok () :=
  clock_put_at_capacity_terminates
    { cache := [("a", 5)], reference_bits := [("a", 1)], pointer := 0,
      capacity := 1, keys := ["a"] } "b" 7
    (by decide) (by decide) (by decide) (by decide) (by decide) (by decide) (by decide)

/-! ## Claim C9: amended -/

/-- Claim C9 as amended: SLRU segments are NOT disjoint — `put` on a key
resident in probation (and not in protected) overwrites the probation
entry and promotes a copy into protected WITHOUT removing the probation
entry, so the key ends up resident in both segments with the new value
(only the `get` promotion path removes the entry from probation first). -/
theorem slru_put_probation_promotes_and_keeps (s : SLRUState) (k : String) (v : Int)
    (hprot : lookupA k s.protected_cache = none)
    (hprob : (lookupA k s.probation_cache).isSome)
    (hok : (SLRUCache.put s k v).2 = .ok ()) :
    lookupA k (SLRUCache.put s k v).1.probation_cache = some v ∧
    lookupA k (SLRUCache.put s k v).1.protected_cache = some v := by
  unfold SLRUCache.put at hok ⊢
  rw [if_neg (show ¬(lookupA k s.protected_cache).isSome = true from by
        rw [hprot]; exact Bool.noConfusion),
      if_pos hprob] at hok ⊢
  unfold SLRUCache.promote at hok ⊢
  dsimp only at hok ⊢
  by_cases hfull : s.protected_capacity ≤ s.protected_cache.length
  · rw [if_pos hfull] at hok ⊢
    cases hc : s.protected_cache with
    | nil =>
      rw [hc] at hok
      exact Except.noConfusion hok
    | cons p t =>
      dsimp only
      have htail : lookupA k t = none := lookupA_tail_of_none (hc ▸ hprot)
      constructor
      · exact lookupA_setA_self k v s.probation_cache
      · rw [lookupA_append_of_none _ htail]
        simp [lookupA]
  · rw [if_neg hfull]
    dsimp only
    constructor
    · exact lookupA_setA_self k v s.probation_cache
    · rw [lookupA_append_of_none _ hprot]
      simp [lookupA]

/-- Witness for the amended C9: a second put of "a" leaves it in both
segments. -/
theorem slru_put_probation_keeps_witness :
    (let s : SLRUState := { probation_cache := [("a", 1)], protected_cache := [],
                            protected_capacity := 1, probation_capacity := 1 };
     lookupA "a" (SLRUCache.put s "a" 2).1.probation_cache = some 2 ∧
     lookupA "a" (SLRUCache.put s "a" 2).1.protected_cache = some 2) :=
  slru_put_probation_promotes_and_keeps
    { probation_cache := [("a", 1)], protected_cache := [],
      protected_capacity := 1, probation_capacity := 1 }
    "a" 2 (by decide) (by decide) (by decide)

/-! ## Claim C10: amended -/

/-- Claim C10 as amended: `get` on a resident key returns its value without
raising ONLY when the protected segment has room to promote into, i.e.
`protected_capacity = floor(capacity * protected_ratio) ≥ 1` (or the hit
is in protected, which `slruPeek` covers); when the floor is 0 — e.g.
capacity 1 with the default ratio 1/2 — a probation hit pops the empty
protected deque and raises IndexError, as the counterexample above
shows. -/
theorem slru_get_resident_ok_when_protected_capacity_pos (s : SLRUState) (k : String) (v : Int)
    (hcap : 1 ≤ s.protected_capacity)
    (hv : slruPeek s k = some v) :
    (SLRUCache.get s k).2 = .ok v := by
  unfold slruPeek at hv
  unfold SLRUCache.get
  cases h1 : lookupA k s.protected_cache with
  | some w =>
    rw [h1] at hv
    injection hv with hv1
    rw [hv1]
  | none =>
    rw [h1] at hv
    cases h2 : lookupA k s.probation_cache with
    | none =>
      rw [h2] at hv
      exact Option.noConfusion hv
    | some w =>
      rw [h2] at hv
      injection hv with hv1
      subst hv1
      dsimp only
      have hpro : (SLRUCache.promote
          { s with probation_cache := eraseA k s.probation_cache } k w).2 = .ok () := by
        unfold SLRUCache.promote
        dsimp only
        split
        · next hfull =>
          cases hc : s.protected_cache with
          | nil =>
            rw [hc] at hfull
            simp only [List.length_nil] at hfull
            omega
          | cons p t => rfl
        · rfl
      rcases hp2 : SLRUCache.promote
        { s with probation_cache := eraseA k s.probation_cache } k w with ⟨s3, r3⟩
      rw [hp2] at hpro
      cases r3 with
      | error e => exact Except.noConfusion hpro
      | ok u => rfl

/-- Witness for the amended C10: capacity 2, ratio 1/2 gives
protected_capacity 1, and a probation hit promotes successfully. -/
theorem slru_get_resident_ok_witness :
    (SLRUCache.get
      { probation_cache := [("a", 1)], protected_cache := [],
        protected_capacity := 1, probation_capacity := 1 } "a").2 = .ok 1 :=
  slru_get_resident_ok_when_protected_capacity_pos
    { probation_cache := [("a", 1)], protected_cache := [],
      protected_capacity := 1, probation_capacity := 1 }
    "a" 1 (by decide) (by decide)
